import Mathlib

/-!
Shallow embedding of the resilience layer of the library-catalog service:
the adaptive cache (`app/core/advanced_caching.py`) and the circuit breaker
(`app/core/circuit_breaker.py`).  Python dictionaries are modelled as
insertion-ordered association lists with unique keys, Python `time.time()`
values as integers passed explicitly to each operation, and Python values
(`Any`) as the inductive type `Val`.
-/

set_option maxHeartbeats 1000000

/-- Model of a Python value as stored in the cache.  `vencoded v` stands for
the byte string `gzip.compress(pickle.dumps(v))`: compression of a
serializable value is injective and `pickle.loads (gzip.decompress ·)` is its
inverse, so the byte blob is represented by the value it encodes. -/
inductive Val where
  | vnone : Val
  | vbool (b : Bool) : Val
  | vint (n : Int) : Val
  | vstr (s : String) : Val
  | vdict (entries : List (String × Val)) : Val
  | vencoded (inner : Val) : Val

/-- Python truthiness of a value (`bool(v)`), used by `dict.get` checks and
by the orchestrator's `if result:` filter. -/
def pyTruthy : Val → Bool
  | .vnone => false
  | .vbool b => b
  | .vint n => n != 0
  | .vstr s => s != ""
  | .vdict d => !d.isEmpty
  | .vencoded _ => true

/-- `d[key]` lookup in a Python dict modelled as an association list. -/
def lookupDict {α : Type} (d : List (String × α)) (key : String) : Option α :=
  match d with
  | [] => none
  | (k, v) :: rest => if k = key then some v else lookupDict rest key

/-- `d[key] = v` on a Python dict: replaces the value in place if the key
exists (keeping its insertion position), otherwise appends the new pair. -/
def setKey {α : Type} (d : List (String × α)) (key : String) (v : α) :
    List (String × α) :=
  match d with
  | [] => [(key, v)]
  | (k, w) :: rest =>
      if k = key then (k, v) :: rest else (k, w) :: setKey rest key v

/-- `del d[key]` on a Python dict (removes the first, hence only, binding). -/
def removeKey {α : Type} (d : List (String × α)) (key : String) :
    List (String × α) :=
  match d with
  | [] => []
  | (k, w) :: rest =>
      if k = key then rest else (k, w) :: removeKey rest key

/-- `list.remove(x)`: removes the first occurrence of `x`. -/
def removeFirst (key : String) : List String → List String
  | [] => []
  | k :: rest => if k = key then rest else k :: removeFirst key rest

/-- Keys of an association list, in insertion order. -/
def keysOf {α : Type} (d : List (String × α)) : List String :=
  d.map Prod.fst

mutual
/-- Model of `len(pickle.dumps(v))`: a structural byte-size measure for the
serialized form of a value (the exact constants stand in for pickle framing
overhead; only comparisons against the 1024-byte threshold matter). -/
def pickleSize : Val → Nat
  | .vnone => 4
  | .vbool _ => 6
  | .vint _ => 12
  | .vstr s => 40 + s.length
  | .vdict d => 42 + pickleSizeEntries d
  | .vencoded v => 60 + pickleSize v

/-- Serialized size contributed by the entries of a dict value. -/
def pickleSizeEntries : List (String × Val) → Nat
  | [] => 0
  | (k, v) :: rest => k.length + 8 + pickleSize v + pickleSizeEntries rest
end

/-- Cache eviction strategies (`CacheStrategy` enum). -/
inductive CacheStrategy where
  | lru | lfu | ttl | write_through | write_behind
deriving DecidableEq

/-- `CacheEntry` dataclass: cached value plus metadata. -/
structure CacheEntry where
  value : Val
  created_at : Int
  accessed_at : Int
  access_count : Int
  ttl : Option Int

/-- `CacheEntry.is_expired` at the given current time `now`. -/
def CacheEntry.is_expired (e : CacheEntry) (now : Int) : Bool :=
  match e.ttl with
  | none => false
  | some t => now - e.created_at > t

/-- Exceptions the cache read path can raise: a missing `"_data"` key or
invalid gzip data inside `_decompress_if_needed`. -/
inductive PyErr where
  | keyError | gzipError
deriving DecidableEq, Repr

/-- `SmartCacheManager` state: configuration, the key→entry dict, the LRU
recency list, the LFU frequency dict, and the metric counters. -/
structure SmartCacheManager where
  max_size : Nat
  default_ttl : Option Int
  strategy : CacheStrategy
  enable_compression : Bool
  cache : List (String × CacheEntry)
  access_order : List String
  frequency_counter : List (String × Int)
  hits : Nat
  misses : Nat
  evictions : Nat
  compressions : Nat

namespace SmartCacheManager

/-- `SmartCacheManager.__init__`. -/
def init (max_size : Nat) (default_ttl : Option Int) (strategy : CacheStrategy)
    (enable_compression : Bool) : SmartCacheManager :=
  { max_size, default_ttl, strategy, enable_compression,
    cache := [], access_order := [], frequency_counter := [],
    hits := 0, misses := 0, evictions := 0, compressions := 0 }

/-- `ttl or self.default_ttl`: Python `or` falls through to the default both
when `ttl` is `None` and when it is the falsy number `0`. -/
def pyOrTTL (ttl : Option Int) (default_ttl : Option Int) : Option Int :=
  match ttl with
  | none => default_ttl
  | some t => if t = 0 then default_ttl else some t

/-- `_compress_if_needed`: serializes the value; if the serialized size
exceeds 1024 bytes, stores a tagged wrapper dict around the compressed
bytes and bumps the compression counter. -/
def compress_if_needed (m : SmartCacheManager) (value : Val) :
    Val × SmartCacheManager :=
  if !m.enable_compression then (value, m)
  else
    let serialized := pickleSize value
    if serialized > 1024 then
      (Val.vdict [("_compressed", Val.vbool true),
                  ("_data", Val.vencoded value)],
       { m with compressions := m.compressions + 1 })
    else (value, m)

/-- `_decompress_if_needed`: if the stored value is a dict whose
`"_compressed"` entry is truthy, decompress and unpickle its `"_data"`
bytes; a missing `"_data"` key raises `KeyError` and non-gzip bytes raise a
gzip error. -/
def decompress_if_needed (value : Val) : Except PyErr Val :=
  match value with
  | .vdict d =>
      if (match lookupDict d "_compressed" with
          | some w => pyTruthy w
          | none => false) then
        match lookupDict d "_data" with
        | some (.vencoded v) => .ok v
        | some _ => .error .gzipError
        | none => .error .keyError
      else .ok (.vdict d)
  | v => .ok v

/-- `self.frequency_counter[key] = self.frequency_counter.get(key, 0) + 1`. -/
def bumpFreq (fc : List (String × Int)) (key : String) : List (String × Int) :=
  setKey fc key ((lookupDict fc key).getD 0 + 1)

/-- The LRU access-order update shared by `get` and `set`: move `key` to the
most-recent end (`self.access_order.remove(key)` guarded by membership,
then `append`). No-op for other strategies. -/
def touchOrder (m : SmartCacheManager) (key : String) : SmartCacheManager :=
  if m.strategy = .lru then
    { m with access_order :=
        (if m.access_order.contains key then
           removeFirst key m.access_order
         else m.access_order) ++ [key] }
  else m

/-- The LFU frequency bump performed by `get`. No-op for other strategies. -/
def touchFreq (m : SmartCacheManager) (key : String) : SmartCacheManager :=
  if m.strategy = .lfu then
    { m with frequency_counter := bumpFreq m.frequency_counter key }
  else m

/-- `delete`: removes the entry and cleans up the recency and frequency
auxiliary structures; returns whether the key was present. -/
def delete (m : SmartCacheManager) (key : String) : Bool × SmartCacheManager :=
  if (lookupDict m.cache key).isNone then (false, m)
  else
    let m := { m with cache := removeKey m.cache key }
    let m := if m.access_order.contains key then
               { m with access_order := removeFirst key m.access_order }
             else m
    let m := if (lookupDict m.frequency_counter key).isSome then
               { m with frequency_counter := removeKey m.frequency_counter key }
             else m
    (true, m)

/-- `get`: miss on unknown key; expired entries are deleted and count as a
miss; on a hit the metadata, the recency/frequency structures and the hit
counter are updated and the (decompressed) value is returned. -/
def get (m : SmartCacheManager) (key : String) (now : Int) :
    Except PyErr Val × SmartCacheManager :=
  match lookupDict m.cache key with
  | none => (.ok .vnone, { m with misses := m.misses + 1 })
  | some entry =>
      if entry.is_expired now then
        let m1 := (m.delete key).2
        (.ok .vnone, { m1 with misses := m1.misses + 1 })
      else
        let entry1 := { entry with accessed_at := now,
                                   access_count := entry.access_count + 1 }
        let m1 := { m with cache := setKey m.cache key entry1 }
        let m2 := touchOrder m1 key
        let m3 := touchFreq m2 key
        (decompress_if_needed entry1.value, { m3 with hits := m3.hits + 1 })

/-- LRU branch of `_evict_entries`: pops the front of the recency list up to
`count` times and deletes the popped key from the cache dict. -/
def evictLRU (m : SmartCacheManager) : Nat → SmartCacheManager
  | 0 => m
  | n + 1 =>
      match m.access_order with
      | [] => m
      | oldest_key :: rest =>
          let m := { m with access_order := rest }
          let m := if (lookupDict m.cache oldest_key).isSome then
                     { m with cache := removeKey m.cache oldest_key,
                              evictions := m.evictions + 1 }
                   else m
          evictLRU m n

/-- One insertion step of Python's stable ascending sort by access
frequency (`sorted(..., key=lambda x: x[1])`). -/
def insertByFreq (x : String × Int) :
    List (String × Int) → List (String × Int)
  | [] => [x]
  | y :: ys => if y.2 ≤ x.2 then y :: insertByFreq x ys else x :: y :: ys

/-- Stable ascending sort of the frequency dict items by frequency. -/
def sortByFreq : List (String × Int) → List (String × Int)
  | [] => []
  | x :: xs => insertByFreq x (sortByFreq xs)

/-- LFU branch of `_evict_entries`: walks the lowest-frequency keys and
deletes each from both the cache dict and the frequency dict. -/
def evictLFUList (m : SmartCacheManager) :
    List (String × Int) → SmartCacheManager
  | [] => m
  | (key, _) :: rest =>
      let m := if (lookupDict m.cache key).isSome then
                 { m with cache := removeKey m.cache key,
                          frequency_counter := removeKey m.frequency_counter key,
                          evictions := m.evictions + 1 }
               else m
      evictLFUList m rest

/-- One insertion step of Python's stable ascending sort of cache items by
`created_at` (`sorted(..., key=lambda x: x[1].created_at)`). -/
def insertByCreated (x : String × CacheEntry) :
    List (String × CacheEntry) → List (String × CacheEntry)
  | [] => [x]
  | y :: ys =>
      if y.2.created_at ≤ x.2.created_at then y :: insertByCreated x ys
      else x :: y :: ys

/-- Stable ascending sort of cache items by creation time. -/
def sortByCreated :
    List (String × CacheEntry) → List (String × CacheEntry)
  | [] => []
  | x :: xs => insertByCreated x (sortByCreated xs)

/-- TTL branch helper of `_evict_entries`: `await self.delete(key)` followed
by `self.evictions += 1`, for each listed key. -/
def deleteEvict (m : SmartCacheManager) : List String → SmartCacheManager
  | [] => m
  | key :: rest =>
      let m := (m.delete key).2
      deleteEvict { m with evictions := m.evictions + 1 } rest

/-- `_evict_entries`: removes up to `count` entries according to the
configured strategy (the enum has no eviction branch for the write-through
and write-behind strategies, so they evict nothing). -/
def evict_entries (m : SmartCacheManager) (count : Nat) (now : Int) :
    SmartCacheManager :=
  match m.strategy with
  | .lru => evictLRU m count
  | .lfu =>
      if m.frequency_counter.isEmpty then m
      else evictLFUList m ((sortByFreq m.frequency_counter).take count)
  | .ttl =>
      let expired_keys :=
        keysOf (m.cache.filter fun kv => kv.2.is_expired now)
      let m := deleteEvict m (expired_keys.take count)
      let remaining : Int := (count : Int) - (expired_keys.length : Int)
      if remaining > 0 then
        let oldest_entries := sortByCreated m.cache
        deleteEvict m ((keysOf oldest_entries).take remaining.toNat)
      else m
  | _ => m

/-- The LFU bookkeeping performed by `set`: a brand-new key starts with
frequency 1; an update-in-place leaves the counter alone. No-op for other
strategies. -/
def initFreq (m : SmartCacheManager) (key : String) (was_update : Bool) :
    SmartCacheManager :=
  if m.strategy = .lfu ∧ !was_update then
    { m with frequency_counter := setKey m.frequency_counter key 1 }
  else m

/-- `set`: when inserting a new key into a full cache, first evicts one
entry (the source's `force` flag selects between two identical eviction
calls); then compresses the value if needed and stores a fresh entry,
updating the recency/frequency structures. -/
def set (m : SmartCacheManager) (key : String) (value : Val)
    (ttl : Option Int) (force : Bool) (now : Int) :
    Bool × SmartCacheManager :=
  let m :=
    if m.cache.length ≥ m.max_size ∧ (lookupDict m.cache key).isNone then
      if !force then m.evict_entries 1 now else m.evict_entries 1 now
    else m
  let p := m.compress_if_needed value
  let compressed_value := p.1
  let m := p.2
  let entry : CacheEntry :=
    { value := compressed_value, created_at := now, accessed_at := now,
      access_count := 1, ttl := pyOrTTL ttl m.default_ttl }
  let was_update := (lookupDict m.cache key).isSome
  let m1 := { m with cache := setKey m.cache key entry }
  let m2 := touchOrder m1 key
  let m3 := initFreq m2 key was_update
  (true, m3)

end SmartCacheManager

/-- One public cache operation, with the wall-clock time at which it runs. -/
inductive CacheOp where
  | set (key : String) (value : Val) (ttl : Option Int) (force : Bool)
      (now : Int)
  | get (key : String) (now : Int)
  | delete (key : String)

/-- State effect of one cache operation (all state mutations in the source
happen before the value, or any decompression exception, is returned). -/
def execOp (m : SmartCacheManager) : CacheOp → SmartCacheManager
  | .set k v t f now => (m.set k v t f now).2
  | .get k now => (m.get k now).2
  | .delete k => (m.delete k).2

/-- State after a sequence of cache operations. -/
def execOps (m : SmartCacheManager) (ops : List CacheOp) : SmartCacheManager :=
  ops.foldl execOp m

/-- The `cached` decorator's wrapper body for one invocation: look the key
up; any value that `is not None` is returned without running the wrapped
function; otherwise the function runs (its result is `fval`) and is stored.
The returned flag records whether the wrapped function was executed. -/
def cachedWrapper (m : SmartCacheManager) (cache_key : String) (fval : Val)
    (ttl : Option Int) (now : Int) :
    Except PyErr (Val × SmartCacheManager × Bool) :=
  match m.get cache_key now with
  | (.error e, _) => .error e
  | (.ok cached_result, m1) =>
      match cached_result with
      | .vnone =>
          let m2 := (m1.set cache_key fval ttl false now).2
          .ok (fval, m2, true)
      | v => .ok (v, m1, false)

/-! ## Orchestrator result merge (`ResilientBookEnrichmentService`) -/

/-- Exception types at the circuit-breaker boundary.  `asyncioTimeout` is
`asyncio.TimeoutError` as raised by `asyncio.wait_for`; `other` stands for
any further exception class. -/
inductive Exc where
  | circuitBreakerOpen
  | circuitBreakerTimeout
  | asyncioTimeout
  | other (code : Nat)
deriving DecidableEq, Repr

/-- `consolidated.update(result)`: Python dict update, assigning every pair
of `r` into `d` in order. -/
def dict_update (d r : List (String × Val)) : List (String × Val) :=
  r.foldl (fun acc kv => setKey acc kv.1 kv.2) d

/-- The result-collection loop of `enrich_book_data`: a task that raised is
logged and skipped, and a returned result is kept only `if result:`
(non-empty dict). -/
def collect_results (outcomes : List (Except Exc (List (String × Val)))) :
    List (List (String × Val)) :=
  outcomes.filterMap fun o =>
    match o with
    | .ok r => if !r.isEmpty then some r else none
    | .error _ => none

/-- The consolidation step of `enrich_book_data`: start from `{}` and
`update` with each surviving result in task order. -/
def enrich_merge (outcomes : List (Except Exc (List (String × Val)))) :
    List (String × Val) :=
  (collect_results outcomes).foldl dict_update []

/-! ## Circuit breaker (`app/core/circuit_breaker.py`) -/

/-- `CircuitState` enum. -/
inductive CircuitState where
  | closed | opened | halfOpen
deriving DecidableEq, Repr

/-- `CircuitBreakerConfig` dataclass; `expected_exception` is the
classified-failure predicate (`except self.config.expected_exception`
membership test). -/
structure CircuitBreakerConfig where
  failure_threshold : Int := 5
  recovery_timeout : Int := 60
  success_threshold : Int := 3
  timeout : Int := 30
  expected_exception : Exc → Bool

/-- `CircuitBreakerStats`: sliding window of outcomes with running
counters. -/
structure CircuitBreakerStats where
  window_size : Nat
  requests : List Bool
  failure_count : Int
  success_count : Int
  last_failure_time : Option Int

namespace CircuitBreakerStats

/-- `CircuitBreakerStats.__init__` (`window_size` defaults to 100). -/
def init (window_size : Nat) : CircuitBreakerStats :=
  { window_size, requests := [], failure_count := 0, success_count := 0,
    last_failure_time := none }

/-- `_add_request`: once the window is full, pop the oldest outcome and
adjust the matching counter, then append the new outcome.  `none` models
the `IndexError` that `requests.pop(0)` raises on an empty list (reachable
only with `window_size = 0`); the exception fires before any mutation. -/
def add_request (s : CircuitBreakerStats) (success : Bool) :
    Option CircuitBreakerStats :=
  if s.requests.length ≥ s.window_size then
    match s.requests with
    | [] => none
    | removed :: rest =>
        let s1 := if removed then { s with success_count := s.success_count - 1 }
                  else { s with failure_count := s.failure_count - 1 }
        some { s1 with requests := rest ++ [success] }
  else some { s with requests := s.requests ++ [success] }

/-- `record_success`. -/
def record_success (s : CircuitBreakerStats) : Option CircuitBreakerStats :=
  (s.add_request true).map fun s1 =>
    { s1 with success_count := s1.success_count + 1 }

/-- `record_failure` at time `now` (`last_failure_time = time.time()`). -/
def record_failure (s : CircuitBreakerStats) (now : Int) :
    Option CircuitBreakerStats :=
  (s.add_request false).map fun s1 =>
    { s1 with failure_count := s1.failure_count + 1,
              last_failure_time := some now }

/-- `total_requests` property. -/
def total_requests (s : CircuitBreakerStats) : Nat :=
  s.requests.length

/-- `failure_rate` property (float division modelled exactly over ℚ). -/
def failure_rate (s : CircuitBreakerStats) : ℚ :=
  if s.requests.length = 0 then 0
  else (s.failure_count : ℚ) / (s.requests.length : ℚ)

end CircuitBreakerStats

/-- One `record_success`/`record_failure` call treated as a state
transformer: when `_add_request` raises (only possible with
`window_size = 0`, and before any field is mutated), the stats object is
left unchanged and the exception propagates to the caller. -/
def statsStep (s : CircuitBreakerStats) (op : Bool × Int) :
    CircuitBreakerStats :=
  match (if op.1 then s.record_success else s.record_failure op.2) with
  | some s1 => s1
  | none => s

/-- Stats state after a sequence of recorded outcomes. -/
def statsRun (s : CircuitBreakerStats) (ops : List (Bool × Int)) :
    CircuitBreakerStats :=
  ops.foldl statsStep s

/-- `CircuitBreaker` instance state.  `fallback` abstracts the configured
fallback callable by the value it returns (`none` = no fallback). -/
structure CircuitBreaker where
  name : String
  config : CircuitBreakerConfig
  fallback : Option Val
  state : CircuitState
  stats : CircuitBreakerStats
  last_state_change : Int
  half_open_success_count : Int

namespace CircuitBreaker

/-- `CircuitBreaker.__init__` at creation time `t0` (the stats window uses
the default size 100). -/
def init (name : String) (config : CircuitBreakerConfig)
    (fallback : Option Val) (t0 : Int) : CircuitBreaker :=
  { name, config, fallback, state := .closed,
    stats := CircuitBreakerStats.init 100,
    last_state_change := t0, half_open_success_count := 0 }

/-- `_check_state_transition` at time `now`: OPEN → HALF_OPEN once the
recovery timeout has elapsed; CLOSED → OPEN once both the raw failure count
and the window population reach `failure_threshold`. -/
def check_state_transition (cb : CircuitBreaker) (now : Int) :
    CircuitBreaker :=
  if cb.state = .opened then
    if now - cb.last_state_change ≥ cb.config.recovery_timeout then
      { cb with state := .halfOpen, half_open_success_count := 0,
                last_state_change := now }
    else cb
  else if cb.state = .closed then
    if cb.stats.failure_count ≥ cb.config.failure_threshold ∧
       (cb.stats.total_requests : Int) ≥ cb.config.failure_threshold then
      { cb with state := .opened, last_state_change := now }
    else cb
  else cb

/-- `_on_success` at time `now` (the half-open counter is incremented first
and then compared against `success_threshold`). -/
def on_success (cb : CircuitBreaker) (now : Int) : Option CircuitBreaker :=
  cb.stats.record_success.map fun st =>
    if cb.state = .halfOpen then
      if cb.half_open_success_count + 1 ≥ cb.config.success_threshold then
        { cb with stats := st, state := .closed, last_state_change := now,
                  half_open_success_count := 0 }
      else
        { cb with stats := st,
                  half_open_success_count := cb.half_open_success_count + 1 }
    else { cb with stats := st }

/-- `_on_failure` at time `now`. -/
def on_failure (cb : CircuitBreaker) (now : Int) : Option CircuitBreaker :=
  (cb.stats.record_failure now).map fun st =>
    if cb.state = .halfOpen then
      { cb with stats := st, state := .opened, last_state_change := now,
                half_open_success_count := 0 }
    else { cb with stats := st }

/-- What the wrapped operation does when it is actually awaited. -/
inductive Outcome where
  | success (v : Val)
  | raises (e : Exc)
  | timeout

/-- Body of `call` after the initial `_check_state_transition` has run
(`cb` is the breaker state the check produced).  Returns the result
delivered to the caller (value or raised exception), the breaker state
afterwards, and whether the wrapped operation was invoked.  The `except`
clauses are tried in source order: an `asyncio.TimeoutError` from
`wait_for` is caught by the `expected_exception` clause first whenever that
type matches it. -/
def callBody (cb : CircuitBreaker) (now : Int) (outcome : Outcome) :
    Option (Except Exc Val × CircuitBreaker × Bool) :=
  if cb.state = .opened then
    match cb.fallback with
    | some fv => some (.ok fv, cb, false)
    | none => some (.error .circuitBreakerOpen, cb, false)
  else
    match outcome with
    | .success v => (cb.on_success now).map fun cb1 => (.ok v, cb1, true)
    | .raises e =>
        if cb.config.expected_exception e then
          (cb.on_failure now).map fun cb1 => (.error e, cb1, true)
        else if e = .asyncioTimeout then
          (cb.on_failure now).map fun cb1 =>
            (.error .circuitBreakerTimeout, cb1, true)
        else some (.error e, cb, true)
    | .timeout =>
        if cb.config.expected_exception .asyncioTimeout then
          (cb.on_failure now).map fun cb1 => (.error .asyncioTimeout, cb1, true)
        else
          (cb.on_failure now).map fun cb1 =>
            (.error .circuitBreakerTimeout, cb1, true)

/-- `call` at time `now`, with the wrapped operation's behaviour given by
`outcome`: evaluate the pending state transition, then run the body. -/
def call (cb : CircuitBreaker) (now : Int) (outcome : Outcome) :
    Option (Except Exc Val × CircuitBreaker × Bool) :=
  callBody (cb.check_state_transition now) now outcome

/-- A run of `call`s with identical timing and operation behaviour. -/
def iterateCalls (cb : CircuitBreaker) (now : Int) (o : Outcome) :
    Nat → Option CircuitBreaker
  | 0 => some cb
  | n + 1 =>
      match cb.call now o with
      | some (_, cb1, _) => iterateCalls cb1 now o n
      | none => none

/-- The caller-visible result of a call rejected while the circuit is
OPEN: the fallback's value when one is configured, otherwise
`CircuitBreakerOpenException`. -/
def openCircuitResult (fb : Option Val) : Except Exc Val :=
  match fb with
  | some fv => .ok fv
  | none => .error .circuitBreakerOpen

end CircuitBreaker


/-! ## Invariants and auxiliary definitions used by the verification -/

/-- Invariant of the sliding window: the running counters equal the number
of successes/failures actually present, and the window never exceeds its
capacity. -/
def statsWF (s : CircuitBreakerStats) : Prop :=
  s.success_count = (s.requests.count true : Int) ∧
  s.failure_count = (s.requests.count false : Int) ∧
  s.requests.length ≤ s.window_size

/-- A value that the read path's compression check mistakes for the tagged
wrapper: a dict whose `"_compressed"` entry is truthy. -/
def isCompressedMarked (v : Val) : Bool :=
  match v with
  | .vdict d =>
      (match lookupDict d "_compressed" with
       | some w => pyTruthy w
       | none => false)
  | _ => false

/-- The value a field ends up with under repeated `dict.update`: the value
from the last listed dict that contains the field. -/
def lastLookup (k : String) (rs : List (List (String × Val))) : Option Val :=
  rs.foldl
    (fun acc r =>
      match lookupDict r k with
      | some v => some v
      | none => acc) none

/-- A concrete cache holding a (never-expiring within the test horizon)
entry whose stored logical value is None, for exercising the present-None
read path. -/
def noneEntryCache : SmartCacheManager :=
  { max_size := 10, default_ttl := some 3600, strategy := .lru,
    enable_compression := true,
    cache := [("k", { value := .vnone, created_at := 0, accessed_at := 0,
                      access_count := 1, ttl := some 3600 })],
    access_order := ["k"], frequency_counter := [], hits := 0, misses := 0,
    evictions := 0, compressions := 0 }

namespace SmartCacheManager

/-- The configuration fields of a cache manager (never mutated by any
operation). -/
def configOf (m : SmartCacheManager) :
    Nat × Option Int × CacheStrategy × Bool :=
  (m.max_size, m.default_ttl, m.strategy, m.enable_compression)

/-- Structural well-formedness of the cache's bookkeeping: the key dict has
no duplicate keys, and under LRU (resp. LFU) the recency list (resp. the
frequency dict's key set) is duplicate-free and tracks exactly the cached
keys. -/
def cacheCoreWF (m : SmartCacheManager) : Prop :=
  (keysOf m.cache).Nodup ∧
  (m.strategy = .lru →
    m.access_order.Nodup ∧
    ∀ k, k ∈ m.access_order ↔ k ∈ keysOf m.cache) ∧
  (m.strategy = .lfu →
    (keysOf m.frequency_counter).Nodup ∧
    ∀ k, k ∈ keysOf m.frequency_counter ↔ k ∈ keysOf m.cache)

/-- Full invariant: structural well-formedness plus the capacity bound. -/
def cacheWF (m : SmartCacheManager) : Prop :=
  cacheCoreWF m ∧ m.cache.length ≤ m.max_size

end SmartCacheManager

/-! ## Association-list (Python dict) lemmas -/

@[simp] theorem keysOf_nil {α : Type} : keysOf ([] : List (String × α)) = [] := rfl

@[simp] theorem keysOf_cons {α : Type} (k : String) (v : α)
    (d : List (String × α)) : keysOf ((k, v) :: d) = k :: keysOf d := rfl

theorem lookupDict_eq_none {α : Type} (d : List (String × α)) (k : String) :
    lookupDict d k = none ↔ k ∉ keysOf d := by
  induction d with
  | nil => simp [lookupDict]
  | cons kv rest ih =>
      obtain ⟨k0, v0⟩ := kv
      by_cases h : k0 = k
      · subst h
        simp [lookupDict]
      · simp only [lookupDict, if_neg h, keysOf_cons, List.mem_cons, ih]
        constructor
        · rintro hk (h1 | h1)
          · exact h h1.symm
          · exact hk h1
        · intro hk h1
          exact hk (Or.inr h1)

theorem lookupDict_isSome {α : Type} (d : List (String × α)) (k : String) :
    (lookupDict d k).isSome ↔ k ∈ keysOf d := by
  rw [Option.isSome_iff_ne_none, ne_eq, lookupDict_eq_none, not_not]

theorem lookupDict_setKey {α : Type} (d : List (String × α)) (k : String)
    (v : α) (j : String) :
    lookupDict (setKey d k v) j = if j = k then some v else lookupDict d j := by
  induction d with
  | nil => simp [setKey, lookupDict, eq_comm]
  | cons kv rest ih =>
      obtain ⟨k0, v0⟩ := kv
      by_cases h0 : k0 = k
      · subst h0
        by_cases h : j = k0
        · subst h
          simp [setKey, lookupDict]
        · simp [setKey, lookupDict, h, eq_comm]
      · by_cases h : j = k0
        · subst h
          simp [setKey, lookupDict, h0]
        · simp [setKey, lookupDict, h0, h, ih, eq_comm]

theorem mem_keysOf_setKey {α : Type} (d : List (String × α)) (k : String)
    (v : α) (j : String) :
    j ∈ keysOf (setKey d k v) ↔ j ∈ keysOf d ∨ j = k := by
  induction d with
  | nil => simp [setKey]
  | cons kv rest ih =>
      obtain ⟨k0, v0⟩ := kv
      by_cases h0 : k0 = k
      · subst h0
        simp [setKey]
        tauto
      · simp [setKey, h0, ih]
        tauto

theorem keysOf_setKey_mem {α : Type} (d : List (String × α)) (k : String)
    (v : α) (h : k ∈ keysOf d) : keysOf (setKey d k v) = keysOf d := by
  induction d with
  | nil => simp at h
  | cons kv rest ih =>
      obtain ⟨k0, v0⟩ := kv
      by_cases h0 : k0 = k
      · simp [setKey, h0]
      · simp only [keysOf_cons, List.mem_cons] at h
        rcases h with h | h
        · exact absurd h.symm h0
        · simp [setKey, h0, ih h]

theorem keysOf_setKey_not_mem {α : Type} (d : List (String × α)) (k : String)
    (v : α) (h : k ∉ keysOf d) : keysOf (setKey d k v) = keysOf d ++ [k] := by
  induction d with
  | nil => simp [setKey]
  | cons kv rest ih =>
      obtain ⟨k0, v0⟩ := kv
      simp only [keysOf_cons, List.mem_cons] at h
      push_neg at h
      simp [setKey, Ne.symm h.1, ih h.2]

theorem length_setKey_mem {α : Type} (d : List (String × α)) (k : String)
    (v : α) (h : k ∈ keysOf d) : (setKey d k v).length = d.length := by
  induction d with
  | nil => simp at h
  | cons kv rest ih =>
      obtain ⟨k0, v0⟩ := kv
      by_cases h0 : k0 = k
      · simp [setKey, h0]
      · simp only [keysOf_cons, List.mem_cons] at h
        rcases h with h | h
        · exact absurd h.symm h0
        · simp [setKey, h0, ih h]

theorem length_setKey_le {α : Type} (d : List (String × α)) (k : String)
    (v : α) : (setKey d k v).length ≤ d.length + 1 := by
  induction d with
  | nil => simp [setKey]
  | cons kv rest ih =>
      obtain ⟨k0, v0⟩ := kv
      by_cases h0 : k0 = k <;> simp [setKey, h0] <;> omega

theorem nodup_keysOf_setKey {α : Type} (d : List (String × α)) (k : String)
    (v : α) (h : (keysOf d).Nodup) : (keysOf (setKey d k v)).Nodup := by
  by_cases hk : k ∈ keysOf d
  · rwa [keysOf_setKey_mem d k v hk]
  · rw [keysOf_setKey_not_mem d k v hk]
    simp [List.nodup_append, h, hk]

theorem length_removeKey {α : Type} (d : List (String × α)) (k : String)
    (h : k ∈ keysOf d) : (removeKey d k).length + 1 = d.length := by
  induction d with
  | nil => simp at h
  | cons kv rest ih =>
      obtain ⟨k0, v0⟩ := kv
      by_cases h0 : k0 = k
      · simp [removeKey, h0]
      · simp only [keysOf_cons, List.mem_cons] at h
        rcases h with h | h
        · exact absurd h.symm h0
        · simp [removeKey, h0, ih h]

theorem removeKey_not_mem {α : Type} (d : List (String × α)) (k : String)
    (h : k ∉ keysOf d) : removeKey d k = d := by
  induction d with
  | nil => simp [removeKey]
  | cons kv rest ih =>
      obtain ⟨k0, v0⟩ := kv
      simp only [keysOf_cons, List.mem_cons] at h
      push_neg at h
      simp [removeKey, Ne.symm h.1, ih h.2]

theorem keysOf_removeKey_sublist {α : Type} (d : List (String × α))
    (k : String) : (keysOf (removeKey d k)).Sublist (keysOf d) := by
  induction d with
  | nil => simp [removeKey]
  | cons kv rest ih =>
      obtain ⟨k0, v0⟩ := kv
      by_cases h0 : k0 = k
      · simpa [removeKey, h0] using (List.sublist_cons_self k0 (keysOf rest))
      · simpa [removeKey, h0] using ih.cons₂ k0

theorem nodup_keysOf_removeKey {α : Type} (d : List (String × α)) (k : String)
    (h : (keysOf d).Nodup) : (keysOf (removeKey d k)).Nodup :=
  (keysOf_removeKey_sublist d k).nodup h

theorem mem_keysOf_removeKey {α : Type} (d : List (String × α)) (k : String)
    (j : String) (h : (keysOf d).Nodup) :
    j ∈ keysOf (removeKey d k) ↔ j ∈ keysOf d ∧ j ≠ k := by
  induction d with
  | nil => simp [removeKey]
  | cons kv rest ih =>
      obtain ⟨k0, v0⟩ := kv
      simp only [keysOf_cons, List.nodup_cons] at h
      by_cases h0 : k0 = k
      · subst h0
        simp only [removeKey, if_pos rfl, keysOf_cons, List.mem_cons]
        constructor
        · intro hj
          refine ⟨Or.inr hj, ?_⟩
          intro hjk
          exact h.1 (hjk ▸ hj)
        · rintro ⟨hj | hj, hne⟩
          · exact absurd hj hne
          · exact hj
      · simp only [removeKey, if_neg h0, keysOf_cons, List.mem_cons, ih h.2]
        constructor
        · rintro (hj | ⟨hj, hne⟩)
          · exact ⟨Or.inl hj, hj ▸ h0⟩
          · exact ⟨Or.inr hj, hne⟩
        · rintro ⟨hj | hj, hne⟩
          · exact Or.inl hj
          · exact Or.inr ⟨hj, hne⟩

theorem removeFirst_not_mem (l : List String) (k : String) (h : k ∉ l) :
    removeFirst k l = l := by
  induction l with
  | nil => simp [removeFirst]
  | cons a rest ih =>
      simp only [List.mem_cons] at h
      push_neg at h
      simp [removeFirst, Ne.symm h.1, ih h.2]

theorem length_removeFirst (l : List String) (k : String) (h : k ∈ l) :
    (removeFirst k l).length + 1 = l.length := by
  induction l with
  | nil => simp at h
  | cons a rest ih =>
      by_cases h0 : a = k
      · simp [removeFirst, h0]
      · simp only [List.mem_cons] at h
        rcases h with h | h
        · exact absurd h.symm h0
        · simp [removeFirst, h0, ih h]

theorem removeFirst_sublist (l : List String) (k : String) :
    (removeFirst k l).Sublist l := by
  induction l with
  | nil => simp [removeFirst]
  | cons a rest ih =>
      by_cases h0 : a = k
      · simpa [removeFirst, h0] using List.sublist_cons_self a rest
      · simpa [removeFirst, h0] using ih.cons₂ a

theorem nodup_removeFirst (l : List String) (k : String) (h : l.Nodup) :
    (removeFirst k l).Nodup :=
  (removeFirst_sublist l k).nodup h

theorem mem_removeFirst (l : List String) (k j : String) (h : l.Nodup) :
    j ∈ removeFirst k l ↔ j ∈ l ∧ j ≠ k := by
  induction l with
  | nil => simp [removeFirst]
  | cons a rest ih =>
      simp only [List.nodup_cons] at h
      by_cases h0 : a = k
      · subst h0
        simp only [removeFirst, if_pos rfl, List.mem_cons]
        constructor
        · intro hj
          refine ⟨Or.inr hj, ?_⟩
          intro hjk
          exact h.1 (hjk ▸ hj)
        · rintro ⟨hj | hj, hne⟩
          · exact absurd hj hne
          · exact hj
      · simp only [removeFirst, if_neg h0, List.mem_cons, ih h.2]
        constructor
        · rintro (hj | ⟨hj, hne⟩)
          · exact ⟨Or.inl hj, hj ▸ h0⟩
          · exact ⟨Or.inr hj, hne⟩
        · rintro ⟨hj | hj, hne⟩
          · exact Or.inl hj
          · exact Or.inr ⟨hj, hne⟩

/-! ## Failure-window (CircuitBreakerStats) lemmas -/


theorem statsWF_init (n : Nat) : statsWF (CircuitBreakerStats.init n) := by
  simp [statsWF, CircuitBreakerStats.init]

theorem statsStep_statsWF (s : CircuitBreakerStats) (op : Bool × Int)
    (h : statsWF s) :
    statsWF (statsStep s op) ∧
    (statsStep s op).requests.length =
      min (s.requests.length + 1) s.window_size ∧
    (statsStep s op).window_size = s.window_size := by
  obtain ⟨hs, hf, hlen⟩ := h
  obtain ⟨b, t⟩ := op
  by_cases hfull : s.requests.length ≥ s.window_size
  · rcases hreq : s.requests with _ | ⟨r, rest⟩
    · have hws : s.window_size = 0 := by
        rw [hreq] at hfull
        simpa using hfull
      cases b <;>
        simp_all [statsStep, CircuitBreakerStats.record_success,
          CircuitBreakerStats.record_failure, CircuitBreakerStats.add_request,
          statsWF]
    · have hlen' : s.requests.length = s.window_size := le_antisymm hlen hfull
      rw [hreq] at hs hf hlen hlen' hfull
      cases b <;> cases r <;>
        simp_all [statsStep, CircuitBreakerStats.record_success,
          CircuitBreakerStats.record_failure, CircuitBreakerStats.add_request,
          statsWF, List.count_cons, List.count_append] <;>
        omega
  · push_neg at hfull
    have hnot : ¬ s.requests.length ≥ s.window_size := by omega
    cases b <;>
      · simp only [statsStep, CircuitBreakerStats.record_success,
          CircuitBreakerStats.record_failure, CircuitBreakerStats.add_request,
          if_neg hnot, Option.map_some']
        refine ⟨⟨?_, ?_, ?_⟩, ?_, rfl⟩ <;>
          simp [statsWF, List.count_append, List.count_cons, hs, hf] <;>
          omega

theorem statsStep_full_fifo (s : CircuitBreakerStats) (b : Bool) (t : Int)
    (h : statsWF s) (hfull : s.requests.length = s.window_size)
    (hw : 1 ≤ s.window_size) :
    (statsStep s (b, t)).requests = s.requests.tail ++ [b] := by
  rcases hreq : s.requests with _ | ⟨r, rest⟩
  · rw [hreq] at hfull
    simp at hfull
    omega
  · have hge : s.requests.length ≥ s.window_size := by omega
    rw [hreq] at hge
    simp only [List.length_cons] at hge
    cases b <;> cases r <;>
      simp [statsStep, CircuitBreakerStats.record_success,
        CircuitBreakerStats.record_failure, CircuitBreakerStats.add_request,
        hreq, hge]

theorem statsRun_statsWF (ops : List (Bool × Int)) (s : CircuitBreakerStats)
    (h : statsWF s) :
    statsWF (statsRun s ops) ∧
    (statsRun s ops).requests.length =
      min (s.requests.length + ops.length) s.window_size ∧
    (statsRun s ops).window_size = s.window_size := by
  induction ops generalizing s with
  | nil =>
      refine ⟨h, ?_, rfl⟩
      have := h.2.2
      simp [statsRun]
      omega
  | cons op rest ih =>
      have hstep := statsStep_statsWF s op h
      have hrun : statsRun s (op :: rest) = statsRun (statsStep s op) rest := rfl
      obtain ⟨h2, hlen2, hws2⟩ := ih (statsStep s op) hstep.1
      refine ⟨by rwa [hrun], ?_, by rw [hrun, hws2, hstep.2.2]⟩
      rw [hrun, hlen2, hstep.2.1, hstep.2.2]
      have := h.2.2
      simp
      omega

/-! ## Circuit-breaker lemmas -/

namespace CircuitBreaker

theorem add_request_lt (s : CircuitBreakerStats) (b : Bool)
    (h : s.requests.length < s.window_size) :
    s.add_request b = some { s with requests := s.requests ++ [b] } := by
  unfold CircuitBreakerStats.add_request
  rw [if_neg (by omega)]

theorem add_request_full (s : CircuitBreakerStats) (b r : Bool)
    (rest : List Bool) (hreq : s.requests = r :: rest)
    (hge : s.requests.length ≥ s.window_size) :
    s.add_request b = some
      { s with requests := rest ++ [b],
               success_count :=
                 if r then s.success_count - 1 else s.success_count,
               failure_count :=
                 if r then s.failure_count else s.failure_count - 1 } := by
  unfold CircuitBreakerStats.add_request
  rw [if_pos hge]
  cases r <;> simp [hreq]

theorem record_failure_lt (s : CircuitBreakerStats) (now : Int)
    (h : s.requests.length < s.window_size) :
    s.record_failure now =
      some { s with requests := s.requests ++ [false],
                    failure_count := s.failure_count + 1,
                    last_failure_time := some now } := by
  simp [CircuitBreakerStats.record_failure, add_request_lt s false h]

theorem record_failure_full (s : CircuitBreakerStats) (now : Int) (r : Bool)
    (rest : List Bool) (hreq : s.requests = r :: rest)
    (hge : s.requests.length ≥ s.window_size) :
    s.record_failure now = some
      { s with requests := rest ++ [false],
               success_count :=
                 if r then s.success_count - 1 else s.success_count,
               failure_count :=
                 (if r then s.failure_count else s.failure_count - 1) + 1,
               last_failure_time := some now } := by
  simp [CircuitBreakerStats.record_failure,
    add_request_full s false r rest hreq hge]

theorem record_failure_shape (s : CircuitBreakerStats) (now : Int)
    (hw : 1 ≤ s.window_size) :
    ∃ s1, s.record_failure now = some s1 ∧
      s1.requests.getLast? = some false ∧
      s1.last_failure_time = some now ∧
      s1.window_size = s.window_size := by
  by_cases hfull : s.requests.length ≥ s.window_size
  · rcases hreq : s.requests with _ | ⟨r, rest⟩
    · rw [hreq] at hfull
      simp at hfull
      omega
    · exact ⟨_, record_failure_full s now r rest hreq hfull,
        by simp [List.getLast?_concat], rfl, rfl⟩
  · push_neg at hfull
    exact ⟨_, record_failure_lt s now hfull,
      by simp [List.getLast?_concat], rfl, rfl⟩

theorem record_success_lt (s : CircuitBreakerStats)
    (h : s.requests.length < s.window_size) :
    s.record_success =
      some { s with requests := s.requests ++ [true],
                    success_count := s.success_count + 1 } := by
  simp [CircuitBreakerStats.record_success, add_request_lt s true h]

theorem record_success_full (s : CircuitBreakerStats) (r : Bool)
    (rest : List Bool) (hreq : s.requests = r :: rest)
    (hge : s.requests.length ≥ s.window_size) :
    s.record_success = some
      { s with requests := rest ++ [true],
               success_count :=
                 (if r then s.success_count - 1 else s.success_count) + 1,
               failure_count :=
                 if r then s.failure_count else s.failure_count - 1 } := by
  simp [CircuitBreakerStats.record_success,
    add_request_full s true r rest hreq hge]

theorem record_success_shape (s : CircuitBreakerStats)
    (hw : 1 ≤ s.window_size) :
    ∃ s1, s.record_success = some s1 ∧ s1.window_size = s.window_size := by
  by_cases hfull : s.requests.length ≥ s.window_size
  · rcases hreq : s.requests with _ | ⟨r, rest⟩
    · rw [hreq] at hfull
      simp at hfull
      omega
    · exact ⟨_, record_success_full s r rest hreq hfull, rfl⟩
  · push_neg at hfull
    exact ⟨_, record_success_lt s hfull, rfl⟩

theorem check_preserves (cb : CircuitBreaker) (now : Int) :
    (cb.check_state_transition now).config = cb.config ∧
    (cb.check_state_transition now).stats = cb.stats ∧
    (cb.check_state_transition now).fallback = cb.fallback := by
  unfold check_state_transition
  split_ifs <;> simp

theorem check_halfOpen (cb : CircuitBreaker) (now : Int)
    (h : cb.state = .halfOpen) : cb.check_state_transition now = cb := by
  simp [check_state_transition, h]

theorem check_open_before (cb : CircuitBreaker) (now : Int)
    (h : cb.state = .opened)
    (ht : now - cb.last_state_change < cb.config.recovery_timeout) :
    cb.check_state_transition now = cb := by
  have hne : ¬ (now - cb.last_state_change ≥ cb.config.recovery_timeout) := by
    omega
  simp [check_state_transition, h, hne]

theorem check_open_after (cb : CircuitBreaker) (now : Int)
    (h : cb.state = .opened)
    (ht : now - cb.last_state_change ≥ cb.config.recovery_timeout) :
    cb.check_state_transition now =
      { cb with state := .halfOpen, half_open_success_count := 0,
                last_state_change := now } := by
  simp [check_state_transition, h, ht]

theorem check_closed_stays (cb : CircuitBreaker) (now : Int)
    (h : cb.state = .closed)
    (hc : ¬(cb.stats.failure_count ≥ cb.config.failure_threshold ∧
            (cb.stats.total_requests : Int) ≥ cb.config.failure_threshold)) :
    cb.check_state_transition now = cb := by
  simp only [check_state_transition, h]
  simp [hc]

theorem check_closed_opens (cb : CircuitBreaker) (now : Int)
    (h : cb.state = .closed)
    (hc : cb.stats.failure_count ≥ cb.config.failure_threshold ∧
          (cb.stats.total_requests : Int) ≥ cb.config.failure_threshold) :
    cb.check_state_transition now =
      { cb with state := .opened, last_state_change := now } := by
  simp only [check_state_transition, h]
  simp [hc.1, hc.2]

theorem callBody_open (cb : CircuitBreaker) (now : Int) (o : Outcome)
    (h : cb.state = .opened) :
    callBody cb now o = some (openCircuitResult cb.fallback, cb, false) := by
  unfold callBody
  rw [if_pos h]
  cases hf : cb.fallback <;> simp [openCircuitResult, hf]

theorem call_open_rejects (cb : CircuitBreaker) (now : Int) (o : Outcome)
    (h : cb.state = .opened)
    (ht : now - cb.last_state_change < cb.config.recovery_timeout) :
    cb.call now o = some (openCircuitResult cb.fallback, cb, false) := by
  unfold call
  rw [check_open_before cb now h ht, callBody_open cb now o h]

theorem on_failure_shape (cb : CircuitBreaker) (now : Int)
    (hw : 1 ≤ cb.stats.window_size) :
    ∃ cb1, cb.on_failure now = some cb1 ∧
      cb1.stats.requests.getLast? = some false ∧
      cb1.stats.last_failure_time = some now ∧
      cb1.config = cb.config ∧ cb1.fallback = cb.fallback ∧
      cb1.stats.window_size = cb.stats.window_size ∧
      (cb.state = .halfOpen →
        cb1.state = .opened ∧ cb1.half_open_success_count = 0) ∧
      (cb.state ≠ .halfOpen →
        cb1.state = cb.state ∧
        cb1.half_open_success_count = cb.half_open_success_count) := by
  obtain ⟨s1, hrec, hlast, htime, hws⟩ := record_failure_shape cb.stats now hw
  unfold on_failure
  rw [hrec]
  simp only [Option.map_some']
  by_cases hho : cb.state = .halfOpen
  · rw [if_pos hho]
    exact ⟨_, rfl, hlast, htime, rfl, rfl, hws, fun _ => ⟨rfl, rfl⟩,
      fun hne => absurd hho hne⟩
  · rw [if_neg hho]
    exact ⟨_, rfl, hlast, htime, rfl, rfl, hws, fun hy => absurd hy hho,
      fun _ => ⟨rfl, rfl⟩⟩

theorem on_success_halfOpen (cb : CircuitBreaker) (now : Int)
    (hho : cb.state = .halfOpen) (hw : 1 ≤ cb.stats.window_size) :
    ∃ cb1, cb.on_success now = some cb1 ∧
      cb1.config = cb.config ∧ cb1.fallback = cb.fallback ∧
      cb1.stats.window_size = cb.stats.window_size ∧
      (cb.half_open_success_count + 1 ≥ cb.config.success_threshold →
        cb1.state = .closed ∧ cb1.half_open_success_count = 0) ∧
      (cb.half_open_success_count + 1 < cb.config.success_threshold →
        cb1.state = .halfOpen ∧
        cb1.half_open_success_count = cb.half_open_success_count + 1) := by
  obtain ⟨s1, hrec, hws⟩ := record_success_shape cb.stats hw
  unfold on_success
  rw [hrec]
  simp only [Option.map_some']
  by_cases hth : cb.half_open_success_count + 1 ≥ cb.config.success_threshold
  · rw [if_pos hho, if_pos hth]
    exact ⟨_, rfl, rfl, rfl, hws, fun _ => ⟨rfl, rfl⟩, fun hlt => by omega⟩
  · rw [if_pos hho, if_neg hth]
    exact ⟨_, rfl, rfl, rfl, hws, fun hge => absurd hge hth,
      fun _ => ⟨hho, rfl⟩⟩

end CircuitBreaker

namespace CircuitBreaker

theorem call_halfOpen_success (cb : CircuitBreaker) (now : Int) (v : Val)
    (hho : cb.state = .halfOpen) :
    cb.call now (.success v) =
      (cb.on_success now).map fun cb1 => (.ok v, cb1, true) := by
  unfold call callBody
  rw [check_halfOpen cb now hho]
  rw [if_neg (by simp [hho])]

theorem run_failures (e : Exc) (now : Int) :
    ∀ (k : Nat) (cb : CircuitBreaker) (j : Nat),
      cb.state = .closed →
      cb.config.expected_exception e = true →
      cb.stats.requests = List.replicate j false →
      cb.stats.failure_count = (j : Int) →
      cb.stats.window_size = 100 →
      ((j : Int) + (k : Int)) ≤ cb.config.failure_threshold →
      j + k ≤ 100 →
      ∃ cb1, iterateCalls cb now (.raises e) k = some cb1 ∧
        cb1.state = .closed ∧
        cb1.stats.requests = List.replicate (j + k) false ∧
        cb1.stats.failure_count = ((j + k : Nat) : Int) ∧
        cb1.stats.window_size = 100 ∧
        cb1.config = cb.config ∧ cb1.fallback = cb.fallback := by
  intro k
  induction k with
  | zero =>
      intro cb j h1 _ h3 h4 h5 _ _
      exact ⟨cb, rfl, h1, by simpa using h3, by simpa using h4, h5, rfl, rfl⟩
  | succ k ih =>
      intro cb j hstate hexp hreq hfc hws hth hle
      have hchk : cb.check_state_transition now = cb := by
        refine check_closed_stays cb now hstate ?_
        rintro ⟨hand, -⟩
        rw [hfc] at hand
        omega
      have hlen : cb.stats.requests.length < cb.stats.window_size := by
        rw [hreq, hws]
        simp
        omega
      have hrece := record_failure_lt cb.stats now hlen
      have hcall : cb.call now (.raises e) = some (.error e,
          { cb with stats :=
              { cb.stats with requests := cb.stats.requests ++ [false],
                              failure_count := cb.stats.failure_count + 1,
                              last_failure_time := some now } }, true) := by
        unfold call callBody
        rw [hchk]
        rw [if_neg (by simp [hstate])]
        simp only [hexp, if_pos]
        unfold on_failure
        rw [hrece]
        simp only [Option.map_some']
        rw [if_neg (by simp [hstate])]
      have hiter : iterateCalls cb now (.raises e) (k + 1) =
          iterateCalls { cb with stats :=
              { cb.stats with requests := cb.stats.requests ++ [false],
                              failure_count := cb.stats.failure_count + 1,
                              last_failure_time := some now } } now (.raises e) k := by
        simp only [iterateCalls, hcall]
      obtain ⟨cb1, hit, hs1, hr1, hf1, hw1, hc1, hfb1⟩ :=
        ih { cb with stats :=
              { cb.stats with requests := cb.stats.requests ++ [false],
                              failure_count := cb.stats.failure_count + 1,
                              last_failure_time := some now } } (j + 1)
          hstate hexp
          (by simp [hreq, ← List.replicate_succ'])
          (by simp [hfc])
          (by simpa using hws)
          (by push_cast at hth ⊢; omega)
          (by omega)
      refine ⟨cb1, by rw [hiter]; exact hit, hs1, ?_, ?_, hw1, hc1, hfb1⟩
      · rw [hr1]
        congr 1
        omega
      · rw [hf1]
        congr 1
        omega

theorem run_successes (v : Val) (now : Int) :
    ∀ (k : Nat) (cb : CircuitBreaker) (s i : Nat),
      cb.state = .halfOpen →
      cb.config.success_threshold = (s : Int) →
      cb.half_open_success_count = (i : Int) →
      i + k ≤ s →
      1 ≤ cb.stats.window_size →
      ∃ cb1, iterateCalls cb now (.success v) k = some cb1 ∧
        cb1.config = cb.config ∧ cb1.fallback = cb.fallback ∧
        1 ≤ cb1.stats.window_size ∧
        (i + k < s → cb1.state = .halfOpen ∧
          cb1.half_open_success_count = ((i + k : Nat) : Int)) ∧
        (i + k = s → 1 ≤ k → cb1.state = .closed ∧
          cb1.half_open_success_count = 0) := by
  intro k
  induction k with
  | zero =>
      intro cb s i hho hs hi _ hw
      exact ⟨cb, rfl, rfl, rfl, hw,
        fun _ => ⟨hho, by simpa using hi⟩, fun _ h1 => by omega⟩
  | succ k ih =>
      intro cb s i hho hs hi hth hw
      obtain ⟨cb1, hsucc, hcfg, hfb, hws, hclose, hstay⟩ :=
        on_success_halfOpen cb now hho hw
      have hcall : cb.call now (.success v) = some (.ok v, cb1, true) := by
        rw [call_halfOpen_success cb now v hho, hsucc]
        rfl
      have hiter : iterateCalls cb now (.success v) (k + 1) =
          iterateCalls cb1 now (.success v) k := by
        simp only [iterateCalls, hcall]
      by_cases hfin : i + 1 = s
      · -- the threshold is reached on this call, so k must be 0
        have hk0 : k = 0 := by omega
        subst hk0
        have hcl := hclose (by rw [hi, hs]; push_cast; omega)
        refine ⟨cb1, by rw [hiter]; rfl, hcfg, hfb, by omega, ?_, ?_⟩
        · intro hlt
          omega
        · intro _ _
          exact hcl
      · -- still below the threshold: stays HALF_OPEN with counter i+1
        have hlt : i + 1 < s := by omega
        have hst := hstay (by rw [hi, hs]; push_cast; omega)
        obtain ⟨cb2, hit2, hcfg2, hfb2, hw2, hlt2, heq2⟩ :=
          ih cb1 s (i + 1) hst.1 (by rw [hcfg, hs]) (by rw [hst.2, hi]; push_cast; ring)
            (by omega) (by omega)
        refine ⟨cb2, by rw [hiter]; exact hit2, by rw [hcfg2, hcfg],
          by rw [hfb2, hfb], hw2, ?_, ?_⟩
        · intro h
          have := hlt2 (by omega)
          refine ⟨this.1, ?_⟩
          rw [this.2]
          congr 1
          omega
        · intro h _
          exact heq2 (by omega) (by omega)

end CircuitBreaker

/-! ## Claim theorems: circuit breaker -/

theorem failure_rate_bounds (s : CircuitBreakerStats) (h : statsWF s) :
    0 ≤ s.failure_rate ∧ s.failure_rate ≤ 1 := by
  obtain ⟨hs, hf, _⟩ := h
  unfold CircuitBreakerStats.failure_rate
  by_cases h0 : s.requests.length = 0
  · simp [h0]
  · rw [if_neg h0, hf]
    have hle : s.requests.count false ≤ s.requests.length :=
      List.count_le_length _ _
    have hpos : (0 : ℚ) < (s.requests.length : ℚ) := by
      exact_mod_cast Nat.pos_of_ne_zero h0
    constructor
    · apply div_nonneg _ (le_of_lt hpos)
      push_cast
      positivity
    · rw [div_le_one hpos]
      push_cast
      exact_mod_cast hle

/-- C7: for every sequence of `record_success`/`record_failure` operations
on a window of capacity N, the window holds at most N outcomes (its length
is in fact `min (number of operations) N`), the running counters always
equal the number of successes/failures actually present, `failure_rate` is
the failure count divided by the window length and lies in [0, 1], and once
the window is full each further record evicts the oldest outcome FIFO. -/
theorem claim_C7_failure_window_invariant :
    (∀ (N : Nat) (ops : List (Bool × Int)),
      (statsRun (CircuitBreakerStats.init N) ops).requests.length =
        min ops.length N ∧
      (statsRun (CircuitBreakerStats.init N) ops).requests.length ≤ N ∧
      (statsRun (CircuitBreakerStats.init N) ops).success_count =
        (((statsRun (CircuitBreakerStats.init N) ops).requests.count true :
          Nat) : Int) ∧
      (statsRun (CircuitBreakerStats.init N) ops).failure_count =
        (((statsRun (CircuitBreakerStats.init N) ops).requests.count false :
          Nat) : Int) ∧
      0 ≤ (statsRun (CircuitBreakerStats.init N) ops).failure_rate ∧
      (statsRun (CircuitBreakerStats.init N) ops).failure_rate ≤ 1 ∧
      ((statsRun (CircuitBreakerStats.init N) ops).requests.length ≠ 0 →
        (statsRun (CircuitBreakerStats.init N) ops).failure_rate =
          ((statsRun (CircuitBreakerStats.init N) ops).failure_count : ℚ) /
          ((statsRun (CircuitBreakerStats.init N) ops).requests.length : ℚ))) ∧
    (∀ (s : CircuitBreakerStats) (b : Bool) (t : Int),
      statsWF s → s.requests.length = s.window_size → 1 ≤ s.window_size →
      (statsStep s (b, t)).requests = s.requests.tail ++ [b]) := by
  constructor
  · intro N ops
    obtain ⟨hwf, hlen, hws⟩ :=
      statsRun_statsWF ops (CircuitBreakerStats.init N) (statsWF_init N)
    obtain ⟨hrl, hru⟩ := failure_rate_bounds _ hwf
    have hlen' : (statsRun (CircuitBreakerStats.init N) ops).requests.length =
        min ops.length N := by
      rw [hlen]
      simp [CircuitBreakerStats.init]
    refine ⟨hlen', by omega, hwf.1, hwf.2.1, hrl, hru, ?_⟩
    intro hne
    unfold CircuitBreakerStats.failure_rate
    rw [if_neg hne]
  · intro s b t hwf hfull hw
    exact statsStep_full_fifo s b t hwf hfull hw

theorem claim_C7_witness :
    (statsRun (CircuitBreakerStats.init 2) [(true, 0), (false, 1), (false, 2)]).requests.length = min 3 2 ∧
    (statsStep ⟨2, [true, false], 1, 1, none⟩ (true, 5)).requests =
      [true, false].tail ++ [true] := by
  constructor
  · exact (claim_C7_failure_window_invariant.1 2
      [(true, 0), (false, 1), (false, 2)]).1
  · exact claim_C7_failure_window_invariant.2 ⟨2, [true, false], 1, 1, none⟩
      true 5 (by constructor <;> simp [statsWF]) (by simp) (by simp)

/-- C1: from a fresh breaker with `failure_threshold` F (F within the
100-entry stats window, so that the recorded counts actually reach F as the
claim asserts), F consecutive calls whose operation raises a classified
exception leave the breaker CLOSED with `total_requests ≥ F` and
`failure_count ≥ F`; the state check at the start of the next call then
moves CLOSED → OPEN, that call is answered by the fallback (or by
`CircuitBreakerOpenException` when no fallback is configured) without
invoking the wrapped operation, and every further call while OPEN (before
`recovery_timeout` elapses) behaves the same way. -/
theorem claim_C1_breaker_opens_after_threshold_failures
    (name : String) (cfg : CircuitBreakerConfig) (fb : Option Val)
    (t0 now now1 : Int) (e : Exc) (o : CircuitBreaker.Outcome) (F : Nat)
    (hF : cfg.failure_threshold = (F : Int)) (hF1 : 1 ≤ F) (hF100 : F ≤ 100)
    (he : cfg.expected_exception e = true) :
    ∃ cbF cbO,
      CircuitBreaker.iterateCalls (CircuitBreaker.init name cfg fb t0) now
        (.raises e) F = some cbF ∧
      cbF.state = .closed ∧
      (cbF.stats.total_requests : Int) ≥ cfg.failure_threshold ∧
      cbF.stats.failure_count ≥ cfg.failure_threshold ∧
      (cbF.check_state_transition now1).state = .opened ∧
      cbF.call now1 o =
        some (CircuitBreaker.openCircuitResult fb, cbO, false) ∧
      cbO.state = .opened ∧ cbO.last_state_change = now1 ∧
      ∀ now2 o2, now2 - now1 < cfg.recovery_timeout →
        cbO.call now2 o2 =
          some (CircuitBreaker.openCircuitResult fb, cbO, false) := by
  obtain ⟨cbF, hit, hstate, hreq, hfc, hws, hcfg, hfb⟩ :=
    CircuitBreaker.run_failures e now F (CircuitBreaker.init name cfg fb t0) 0
      rfl (by simpa [CircuitBreaker.init] using he)
      (by simp [CircuitBreaker.init, CircuitBreakerStats.init])
      (by simp [CircuitBreaker.init, CircuitBreakerStats.init])
      (by simp [CircuitBreaker.init, CircuitBreakerStats.init])
      (by simp [CircuitBreaker.init, hF])
      (by omega)
  have hcfg' : cbF.config = cfg := by
    simpa [CircuitBreaker.init] using hcfg
  have hfb' : cbF.fallback = fb := by
    simpa [CircuitBreaker.init] using hfb
  have htot : (cbF.stats.total_requests : Int) ≥ cfg.failure_threshold := by
    unfold CircuitBreakerStats.total_requests
    rw [hreq, hF]
    simp
  have hfcF : cbF.stats.failure_count ≥ cfg.failure_threshold := by
    rw [hfc, hF]
    simp
  have hcond : cbF.stats.failure_count ≥ cbF.config.failure_threshold ∧
      (cbF.stats.total_requests : Int) ≥ cbF.config.failure_threshold := by
    rw [hcfg']
    exact ⟨hfcF, htot⟩
  have hchk := CircuitBreaker.check_closed_opens cbF now1 hstate hcond
  refine ⟨cbF, { cbF with state := .opened, last_state_change := now1 },
    hit, hstate, htot, hfcF, by rw [hchk], ?_, rfl, rfl, ?_⟩
  · unfold CircuitBreaker.call
    rw [hchk]
    rw [CircuitBreaker.callBody_open _ now1 o rfl]
    simp [hfb']
  · intro now2 o2 ht
    have := CircuitBreaker.call_open_rejects
      { cbF with state := .opened, last_state_change := now1 } now2 o2 rfl
      (by simpa [hcfg'] using ht)
    simpa [hfb'] using this

theorem claim_C1_witness :
    ∃ cbF cbO,
      CircuitBreaker.iterateCalls
        (CircuitBreaker.init "api"
          ⟨2, 30, 3, 10, fun _ => true⟩ none 0) 0 (.raises (.other 7)) 2 =
        some cbF ∧
      cbF.state = .closed ∧
      (cbF.stats.total_requests : Int) ≥
        (⟨2, 30, 3, 10, fun _ => true⟩ : CircuitBreakerConfig).failure_threshold ∧
      cbF.stats.failure_count ≥
        (⟨2, 30, 3, 10, fun _ => true⟩ : CircuitBreakerConfig).failure_threshold ∧
      (cbF.check_state_transition 1).state = .opened ∧
      cbF.call 1 (.success .vnone) =
        some (CircuitBreaker.openCircuitResult none, cbO, false) ∧
      cbO.state = .opened ∧ cbO.last_state_change = 1 ∧
      ∀ now2 o2, now2 - 1 <
          (⟨2, 30, 3, 10, fun _ => true⟩ : CircuitBreakerConfig).recovery_timeout →
        cbO.call now2 o2 =
          some (CircuitBreaker.openCircuitResult none, cbO, false) :=
  claim_C1_breaker_opens_after_threshold_failures "api"
    ⟨2, 30, 3, 10, fun _ => true⟩ none 0 0 1 (.other 7) (.success .vnone) 2
    (by norm_num) (by norm_num) (by norm_num) rfl

/-- C5: when the breaker is CLOSED or HALF_OPEN after the state check, a
call whose wrapped operation exceeds the per-call timeout records a failure
(a `false` outcome is appended to the window and `last_failure_time` is
set) and raises a timeout-classified error to the caller: the
`asyncio.TimeoutError` itself when `expected_exception` matches that type
(as the default `Exception` does), otherwise
`CircuitBreakerTimeoutException`. -/
theorem claim_C5_timeout_records_failure_and_raises
    (cb : CircuitBreaker) (now : Int)
    (hw : 1 ≤ cb.stats.window_size)
    (hno : (cb.check_state_transition now).state ≠ .opened) :
    ∃ (e : Exc) (cb1 : CircuitBreaker),
      cb.call now .timeout = some (.error e, cb1, true) ∧
      (e = .asyncioTimeout ∨ e = .circuitBreakerTimeout) ∧
      (e = .asyncioTimeout ↔
        cb.config.expected_exception .asyncioTimeout = true) ∧
      cb1.stats.requests.getLast? = some false ∧
      cb1.stats.last_failure_time = some now := by
  have hpres := CircuitBreaker.check_preserves cb now
  have hw' : 1 ≤ (cb.check_state_transition now).stats.window_size := by
    rw [hpres.2.1]
    exact hw
  obtain ⟨cb1, hof, hlast, htime, _, _, _, _, _⟩ :=
    CircuitBreaker.on_failure_shape (cb.check_state_transition now) now hw'
  unfold CircuitBreaker.call CircuitBreaker.callBody
  rw [if_neg hno]
  by_cases hexp : cb.config.expected_exception .asyncioTimeout = true
  · have hexp' : (cb.check_state_transition now).config.expected_exception
        .asyncioTimeout = true := by
      rw [hpres.1]
      exact hexp
    rw [if_pos hexp', hof]
    exact ⟨.asyncioTimeout, cb1, rfl, Or.inl rfl, by simp [hexp],
      hlast, htime⟩
  · have hexp' : ¬ ((cb.check_state_transition now).config.expected_exception
        .asyncioTimeout = true) := by
      rw [hpres.1]
      exact hexp
    rw [if_neg hexp', hof]
    refine ⟨.circuitBreakerTimeout, cb1, rfl, Or.inr rfl, ?_, hlast, htime⟩
    constructor
    · intro h
      cases h
    · intro h
      exact absurd h hexp

theorem claim_C5_witness :
    ∃ (e : Exc) (cb1 : CircuitBreaker),
      (CircuitBreaker.init "x" ⟨5, 60, 3, 30, fun _ => true⟩ none 0).call 0
          .timeout = some (.error e, cb1, true) ∧
      (e = .asyncioTimeout ∨ e = .circuitBreakerTimeout) ∧
      (e = .asyncioTimeout ↔
        (CircuitBreaker.init "x" ⟨5, 60, 3, 30, fun _ => true⟩ none
          0).config.expected_exception .asyncioTimeout = true) ∧
      cb1.stats.requests.getLast? = some false ∧
      cb1.stats.last_failure_time = some 0 :=
  claim_C5_timeout_records_failure_and_raises
    (CircuitBreaker.init "x" ⟨5, 60, 3, 30, fun _ => true⟩ none 0) 0
    (by decide) (by decide)

/-- C6: an OPEN breaker whose recovery timeout has elapsed is moved to
HALF_OPEN with the half-open success counter reset to 0 by the state check;
from HALF_OPEN with the counter at 0, `success_threshold` consecutive
successful calls transition the breaker to CLOSED (and strictly before the
threshold it stays HALF_OPEN with the counter equal to the number of
successes so far); any single recorded failure while HALF_OPEN transitions
it back to OPEN and resets the half-open counter to 0. -/
theorem claim_C6_recovery_cycle :
    (∀ (cb : CircuitBreaker) (now : Int),
      cb.state = .opened →
      now - cb.last_state_change ≥ cb.config.recovery_timeout →
      cb.check_state_transition now =
        { cb with state := .halfOpen, half_open_success_count := 0,
                  last_state_change := now }) ∧
    (∀ (cb : CircuitBreaker) (now : Int) (v : Val) (s : Nat),
      cb.state = .halfOpen → cb.half_open_success_count = 0 →
      cb.config.success_threshold = (s : Int) → 1 ≤ s →
      1 ≤ cb.stats.window_size →
      (∃ cb1, CircuitBreaker.iterateCalls cb now (.success v) s = some cb1 ∧
        cb1.state = .closed ∧ cb1.half_open_success_count = 0) ∧
      (∀ j, j < s → ∃ cbj,
        CircuitBreaker.iterateCalls cb now (.success v) j = some cbj ∧
        cbj.state = .halfOpen ∧ cbj.half_open_success_count = (j : Int))) ∧
    (∀ (cb : CircuitBreaker) (now : Int),
      cb.state = .halfOpen → 1 ≤ cb.stats.window_size →
      ∃ cb1, cb.on_failure now = some cb1 ∧ cb1.state = .opened ∧
        cb1.half_open_success_count = 0) := by
  refine ⟨?_, ?_, ?_⟩
  · intro cb now h ht
    exact CircuitBreaker.check_open_after cb now h ht
  · intro cb now v s hho h0 hs hs1 hw
    constructor
    · obtain ⟨cb1, hit, _, _, _, _, hfin⟩ :=
        CircuitBreaker.run_successes v now s cb s 0 hho hs h0 (by omega) hw
      obtain ⟨hcl, hhoc⟩ := hfin (by omega) (by omega)
      exact ⟨cb1, hit, hcl, hhoc⟩
    · intro j hj
      obtain ⟨cbj, hit, _, _, _, hmid, _⟩ :=
        CircuitBreaker.run_successes v now j cb s 0 hho hs h0 (by omega) hw
      obtain ⟨hstate, hhoc⟩ := hmid (by omega)
      refine ⟨cbj, hit, hstate, ?_⟩
      simpa using hhoc
  · intro cb now hho hw
    obtain ⟨cb1, hof, _, _, _, _, _, hhalf, _⟩ :=
      CircuitBreaker.on_failure_shape cb now hw
    obtain ⟨hs, hc⟩ := hhalf hho
    exact ⟨cb1, hof, hs, hc⟩

theorem claim_C6_witness :
    (({ name := "w", config := ⟨5, 30, 2, 10, fun _ => true⟩,
        fallback := none, state := .opened,
        stats := CircuitBreakerStats.init 100, last_state_change := 0,
        half_open_success_count := 0 } :
          CircuitBreaker).check_state_transition 30 =
      { name := "w", config := ⟨5, 30, 2, 10, fun _ => true⟩,
        fallback := none, state := .halfOpen,
        stats := CircuitBreakerStats.init 100, last_state_change := 30,
        half_open_success_count := 0 }) ∧
    (∃ cb1, CircuitBreaker.iterateCalls
        ({ name := "w", config := ⟨5, 30, 2, 10, fun _ => true⟩,
           fallback := none, state := .halfOpen,
           stats := CircuitBreakerStats.init 100, last_state_change := 30,
           half_open_success_count := 0 } : CircuitBreaker) 31
        (.success .vnone) 2 = some cb1 ∧
      cb1.state = .closed ∧ cb1.half_open_success_count = 0) ∧
    (∃ cb1,
      ({ name := "w", config := ⟨5, 30, 2, 10, fun _ => true⟩,
         fallback := none, state := .halfOpen,
         stats := CircuitBreakerStats.init 100, last_state_change := 30,
         half_open_success_count := 0 } : CircuitBreaker).on_failure 31 =
        some cb1 ∧
      cb1.state = .opened ∧ cb1.half_open_success_count = 0) := by
  refine ⟨?_, ?_, ?_⟩
  · exact claim_C6_recovery_cycle.1 _ 30 rfl (by norm_num)
  · exact (claim_C6_recovery_cycle.2.1 _ 31 .vnone 2 rfl rfl (by norm_num)
      (by norm_num) (by simp [CircuitBreakerStats.init])).1
  · exact claim_C6_recovery_cycle.2.2 _ 31 rfl (by simp [CircuitBreakerStats.init])

/-! ## Cache lemmas -/

namespace SmartCacheManager


theorem configOf_delete (m : SmartCacheManager) (k : String) :
    configOf (m.delete k).2 = configOf m := by
  unfold delete
  dsimp only
  split_ifs <;> rfl

theorem configOf_touchOrder (m : SmartCacheManager) (k : String) :
    configOf (touchOrder m k) = configOf m := by
  unfold touchOrder
  split_ifs <;> rfl

theorem configOf_touchFreq (m : SmartCacheManager) (k : String) :
    configOf (touchFreq m k) = configOf m := by
  unfold touchFreq
  split_ifs <;> rfl

theorem configOf_initFreq (m : SmartCacheManager) (k : String) (b : Bool) :
    configOf (initFreq m k b) = configOf m := by
  unfold initFreq
  split_ifs <;> rfl

theorem configOf_evictLRU (n : Nat) :
    ∀ m : SmartCacheManager, configOf (evictLRU m n) = configOf m := by
  induction n with
  | zero => intro m; rfl
  | succ n ih =>
      intro m
      unfold evictLRU
      cases horder : m.access_order with
      | nil => rfl
      | cons k rest =>
          dsimp only
          split_ifs <;> rw [ih] <;> rfl

theorem configOf_evictLFUList (l : List (String × Int)) :
    ∀ m : SmartCacheManager, configOf (evictLFUList m l) = configOf m := by
  induction l with
  | nil => intro m; rfl
  | cons kv rest ih =>
      intro m
      obtain ⟨k, f⟩ := kv
      unfold evictLFUList
      dsimp only
      split_ifs <;> rw [ih] <;> rfl

theorem configOf_deleteEvict (l : List String) :
    ∀ m : SmartCacheManager, configOf (deleteEvict m l) = configOf m := by
  induction l with
  | nil => intro m; rfl
  | cons k rest ih =>
      intro m
      unfold deleteEvict
      dsimp only
      rw [ih]
      have h := configOf_delete m k
      unfold configOf at h ⊢
      simp at h ⊢
      exact h

theorem configOf_evict_entries (m : SmartCacheManager) (n : Nat) (now : Int) :
    configOf (m.evict_entries n now) = configOf m := by
  unfold evict_entries
  cases hstrat : m.strategy
  · exact configOf_evictLRU n m
  · dsimp only
    split_ifs
    · rfl
    · exact configOf_evictLFUList _ m
  · dsimp only
    split_ifs
    · rw [configOf_deleteEvict, configOf_deleteEvict]
    · rw [configOf_deleteEvict]
  · rfl
  · rfl

theorem configOf_compress (m : SmartCacheManager) (v : Val) :
    configOf (m.compress_if_needed v).2 = configOf m := by
  unfold compress_if_needed
  dsimp only
  split_ifs <;> rfl

theorem compress_fst (m : SmartCacheManager) (v : Val) :
    (m.compress_if_needed v).1 =
      (if !m.enable_compression then v
       else if pickleSize v > 1024 then
         Val.vdict [("_compressed", Val.vbool true),
                    ("_data", Val.vencoded v)]
       else v) := by
  unfold compress_if_needed
  dsimp only
  split_ifs <;> rfl

theorem configOf_set (m : SmartCacheManager) (k : String) (v : Val)
    (ttl : Option Int) (force : Bool) (now : Int) :
    configOf (m.set k v ttl force now).2 = configOf m := by
  unfold set
  dsimp only
  refine (configOf_initFreq _ _ _).trans ((configOf_touchOrder _ _).trans ?_)
  refine (configOf_compress _ _).trans ?_
  split_ifs <;> first | rfl | exact configOf_evict_entries m 1 now

theorem configOf_get (m : SmartCacheManager) (k : String) (now : Int) :
    configOf (m.get k now).2 = configOf m := by
  unfold get
  cases hl : lookupDict m.cache k with
  | none => rfl
  | some e =>
      dsimp only
      split_ifs
      · exact configOf_delete m k
      · exact (configOf_touchFreq _ _).trans ((configOf_touchOrder _ _).trans rfl)

end SmartCacheManager

theorem configOf_execOp (m : SmartCacheManager) (op : CacheOp) :
    SmartCacheManager.configOf (execOp m op) = SmartCacheManager.configOf m := by
  cases op with
  | set k v t f now => exact SmartCacheManager.configOf_set m k v t f now
  | get k now => exact SmartCacheManager.configOf_get m k now
  | delete k => exact SmartCacheManager.configOf_delete m k

namespace SmartCacheManager

theorem max_size_eq {m1 m2 : SmartCacheManager}
    (h : configOf m1 = configOf m2) : m1.max_size = m2.max_size :=
  congrArg Prod.fst h

theorem default_ttl_eq {m1 m2 : SmartCacheManager}
    (h : configOf m1 = configOf m2) : m1.default_ttl = m2.default_ttl :=
  congrArg (fun p => p.2.1) h

theorem strategy_eq {m1 m2 : SmartCacheManager}
    (h : configOf m1 = configOf m2) : m1.strategy = m2.strategy :=
  congrArg (fun p => p.2.2.1) h

theorem enable_eq {m1 m2 : SmartCacheManager}
    (h : configOf m1 = configOf m2) : m1.enable_compression = m2.enable_compression :=
  congrArg (fun p => p.2.2.2) h

theorem cache_touchOrder (m : SmartCacheManager) (k : String) :
    (touchOrder m k).cache = m.cache := by
  unfold touchOrder
  split_ifs <;> rfl

theorem cache_touchFreq (m : SmartCacheManager) (k : String) :
    (touchFreq m k).cache = m.cache := by
  unfold touchFreq
  split_ifs <;> rfl

theorem cache_initFreq (m : SmartCacheManager) (k : String) (b : Bool) :
    (initFreq m k b).cache = m.cache := by
  unfold initFreq
  split_ifs <;> rfl

theorem cache_compress (m : SmartCacheManager) (v : Val) :
    ((m.compress_if_needed v).2).cache = m.cache := by
  unfold compress_if_needed
  dsimp only
  split_ifs <;> rfl

/-- Effect of `set` on the cache dict: the key is bound to a fresh entry
(compressed value, timestamps `now`, access count 1, ttl `ttl or
default_ttl`) in the post-eviction state `mid`. -/
theorem set_result (m : SmartCacheManager) (key : String) (v : Val)
    (ttl : Option Int) (force : Bool) (now : Int) :
    ∃ mid : SmartCacheManager, configOf mid = configOf m ∧
      ((m.set key v ttl force now).2).cache =
        setKey mid.cache key
          { value := (if !m.enable_compression then v
                      else if pickleSize v > 1024 then
                        Val.vdict [("_compressed", Val.vbool true),
                                   ("_data", Val.vencoded v)]
                      else v),
            created_at := now, accessed_at := now, access_count := 1,
            ttl := pyOrTTL ttl m.default_ttl } ∧
      (¬(m.cache.length ≥ m.max_size ∧ (lookupDict m.cache key).isNone) →
        mid = m) ∧
      ((m.cache.length ≥ m.max_size ∧ (lookupDict m.cache key).isNone) →
        mid = m.evict_entries 1 now) := by
  unfold set
  dsimp only
  rw [ite_self]
  by_cases hev : m.cache.length ≥ m.max_size ∧ (lookupDict m.cache key).isNone
  · rw [if_pos hev]
    refine ⟨m.evict_entries 1 now, configOf_evict_entries m 1 now, ?_,
      fun h => absurd hev h, fun _ => rfl⟩
    rw [cache_initFreq, cache_touchOrder]
    dsimp only
    rw [cache_compress]
    have hd := default_ttl_eq
      ((configOf_compress (m.evict_entries 1 now) v).trans
        (configOf_evict_entries m 1 now))
    have he := enable_eq (configOf_evict_entries m 1 now)
    rw [hd, compress_fst, he]
  · rw [if_neg hev]
    refine ⟨m, rfl, ?_, fun _ => rfl, fun h => absurd h hev⟩
    rw [cache_initFreq, cache_touchOrder]
    dsimp only
    rw [cache_compress]
    have hd := default_ttl_eq (configOf_compress m v)
    rw [hd, compress_fst]

end SmartCacheManager


theorem decompress_unmarked (v : Val) (h : isCompressedMarked v = false) :
    SmartCacheManager.decompress_if_needed v = .ok v := by
  cases v with
  | vdict d =>
      unfold SmartCacheManager.decompress_if_needed
      unfold isCompressedMarked at h
      dsimp only at h ⊢
      rw [if_neg (by simp [h])]
  | vnone => rfl
  | vbool b => rfl
  | vint n => rfl
  | vstr s => rfl
  | vencoded w => rfl

theorem decompress_compressValue (enable : Bool) (v : Val)
    (hv : isCompressedMarked v = false ∨
          (enable = true ∧ 1024 < pickleSize v)) :
    SmartCacheManager.decompress_if_needed
      (if !enable then v
       else if pickleSize v > 1024 then
         Val.vdict [("_compressed", Val.vbool true), ("_data", Val.vencoded v)]
       else v) = .ok v := by
  cases enable with
  | false =>
      simp only [Bool.not_false, if_pos]
      rcases hv with hv | hv
      · exact decompress_unmarked v hv
      · exact absurd hv.1 (by simp)
  | true =>
      simp only [Bool.not_true, Bool.false_eq_true, if_false]
      by_cases hsz : pickleSize v > 1024
      · rw [if_pos hsz]
        rfl
      · rw [if_neg hsz]
        rcases hv with hv | hv
        · exact decompress_unmarked v hv
        · omega

namespace SmartCacheManager

theorem hits_touchOrder (m : SmartCacheManager) (k : String) :
    (touchOrder m k).hits = m.hits := by
  unfold touchOrder
  split_ifs <;> rfl

theorem hits_touchFreq (m : SmartCacheManager) (k : String) :
    (touchFreq m k).hits = m.hits := by
  unfold touchFreq
  split_ifs <;> rfl

theorem get_miss (m : SmartCacheManager) (key : String) (now : Int)
    (hl : lookupDict m.cache key = none) :
    m.get key now = (.ok .vnone, { m with misses := m.misses + 1 }) := by
  simp only [get, hl]

theorem get_expired (m : SmartCacheManager) (key : String) (now : Int)
    (e : CacheEntry) (hl : lookupDict m.cache key = some e)
    (hexp : e.is_expired now = true) :
    m.get key now = (.ok .vnone,
      { (m.delete key).2 with misses := (m.delete key).2.misses + 1 }) := by
  simp only [get, hl]
  rw [if_pos hexp]

theorem get_hit_fst (m : SmartCacheManager) (key : String) (now : Int)
    (e : CacheEntry) (hl : lookupDict m.cache key = some e)
    (hexp : e.is_expired now = false) :
    (m.get key now).1 = decompress_if_needed e.value := by
  simp only [get, hl]
  rw [if_neg (by simp [hexp])]

theorem get_hit_hits (m : SmartCacheManager) (key : String) (now : Int)
    (e : CacheEntry) (hl : lookupDict m.cache key = some e)
    (hexp : e.is_expired now = false) :
    (m.get key now).2.hits = m.hits + 1 := by
  simp only [get, hl]
  rw [if_neg (by simp [hexp])]
  dsimp only
  rw [hits_touchFreq, hits_touchOrder]

end SmartCacheManager

/-! ## Claim theorems: cache -/

/-- C3 as stated is false: a small value that is itself a dict with a
truthy `"_compressed"` key is stored verbatim by `set` (it is below the
compression threshold) but `get`'s decompression check mistakes it for the
compression wrapper and returns its decoded `"_data"` payload instead of
the value itself. -/
theorem claim_C3_counterexample :
    ((((SmartCacheManager.init 1000 (some 3600) .lru true).set "k"
        (.vdict [("_compressed", .vbool true), ("_data", .vencoded .vnone)])
        none false 0).2).get "k" 0).1 = .ok .vnone ∧
    Val.vnone ≠
      Val.vdict [("_compressed", .vbool true), ("_data", .vencoded .vnone)] :=
  ⟨rfl, fun h => Val.noConfusion h⟩

/-- C3 (amended): `set(k, v)` immediately followed by `get(k)` returns a
value equal to v — for every serializable v that is not mistakable for the
compression wrapper when stored uncompressed, i.e. unless v is itself a
dict with a truthy `"_compressed"` key and is stored verbatim (compression
disabled or serialized size ≤ 1024).  In particular the round trip is exact
for every non-wrapper-shaped value of any size and for every value whose
serialized size exceeds 1024 bytes with compression enabled; compression
and decompression are lossless and `get` returns the logical value, never
the tagged wrapper.  (A nonnegative store default TTL keeps the fresh entry
unexpired at the same instant.) -/
theorem claim_C3_roundtrip (m : SmartCacheManager) (key : String) (v : Val)
    (force : Bool) (now : Int)
    (httl : ∀ t, m.default_ttl = some t → 0 ≤ t)
    (hv : isCompressedMarked v = false ∨
          (m.enable_compression = true ∧ 1024 < pickleSize v)) :
    (((m.set key v none force now).2).get key now).1 = .ok v := by
  obtain ⟨mid, hcfg, hcache, _, _⟩ :=
    SmartCacheManager.set_result m key v none force now
  have hlook : lookupDict ((m.set key v none force now).2).cache key =
      some { value := (if !m.enable_compression then v
                       else if pickleSize v > 1024 then
                         Val.vdict [("_compressed", Val.vbool true),
                                    ("_data", Val.vencoded v)]
                       else v),
             created_at := now, accessed_at := now, access_count := 1,
             ttl := SmartCacheManager.pyOrTTL none m.default_ttl } := by
    rw [hcache, lookupDict_setKey]
    simp
  have hexp : CacheEntry.is_expired
      { value := (if !m.enable_compression then v
                  else if pickleSize v > 1024 then
                    Val.vdict [("_compressed", Val.vbool true),
                               ("_data", Val.vencoded v)]
                  else v),
        created_at := now, accessed_at := now, access_count := 1,
        ttl := SmartCacheManager.pyOrTTL none m.default_ttl } now = false := by
    unfold CacheEntry.is_expired SmartCacheManager.pyOrTTL
    cases hd : m.default_ttl with
    | none => rfl
    | some t =>
        have := httl t hd
        dsimp only
        simp
        omega
  rw [SmartCacheManager.get_hit_fst _ key now _ hlook hexp]
  exact decompress_compressValue m.enable_compression v hv

theorem claim_C3_witness :
    (((SmartCacheManager.init 1000 (some 3600) .lru true).set "k"
        (.vstr "hello") none false 0).2.get "k" 0).1 = .ok (.vstr "hello") ∧
    (((SmartCacheManager.init 1000 (some 3600) .lru true).set "big"
        (.vstr (String.mk (List.replicate 2000 'x'))) none false
        0).2.get "big" 0).1 = .ok (.vstr (String.mk (List.replicate 2000 'x'))) := by
  constructor
  · exact claim_C3_roundtrip _ "k" (.vstr "hello") false 0
      (by intro t ht; simp [SmartCacheManager.init] at ht; omega)
      (Or.inl rfl)
  · exact claim_C3_roundtrip _ "big" (.vstr (String.mk (List.replicate 2000 'x')))
      false 0
      (by intro t ht; simp [SmartCacheManager.init] at ht; omega)
      (Or.inr ⟨rfl, by norm_num [pickleSize]⟩)

/-- C8: on a capacity-2 LRU cache, the sequence
`set a; set b; get a; set c` leaves exactly the keys a and c stored — the
`get` refreshed a's recency, so b was the least-recently-used entry and was
evicted by the final `set`. -/
theorem claim_C8_lru_scenario :
    keysOf (execOps (SmartCacheManager.init 2 (some 3600) .lru true)
      [.set "a" (.vint 1) none false 0, .set "b" (.vint 2) none false 0,
       .get "a" 0, .set "c" (.vint 3) none false 0]).cache = ["a", "c"] ∧
    lookupDict (execOps (SmartCacheManager.init 2 (some 3600) .lru true)
      [.set "a" (.vint 1) none false 0, .set "b" (.vint 2) none false 0,
       .get "a" 0, .set "c" (.vint 3) none false 0]).cache "b" = none ∧
    (execOps (SmartCacheManager.init 2 (some 3600) .lru true)
      [.set "a" (.vint 1) none false 0, .set "b" (.vint 2) none false 0,
       .get "a" 0, .set "c" (.vint 3) none false 0]).evictions = 1 :=
  ⟨rfl, rfl, rfl⟩

/-- C9: passing an explicit `ttl` of 0 to `set` stores the entry with the
store-wide `default_ttl` — `ttl or self.default_ttl` treats the falsy 0
exactly like an omitted argument, so immediate expiry cannot be requested
through `ttl=0`. -/
theorem claim_C9_zero_ttl_falls_back_to_default (m : SmartCacheManager)
    (key : String) (v : Val) (force : Bool) (now : Int) :
    (∃ e, lookupDict ((m.set key v (some 0) force now).2).cache key =
        some e ∧ e.ttl = m.default_ttl) ∧
    SmartCacheManager.pyOrTTL (some 0) m.default_ttl =
      SmartCacheManager.pyOrTTL none m.default_ttl := by
  constructor
  · obtain ⟨mid, hcfg, hcache, _, _⟩ :=
      SmartCacheManager.set_result m key v (some 0) force now
    have hlook : lookupDict ((m.set key v (some 0) force now).2).cache key =
        some { value := (if !m.enable_compression then v
                         else if pickleSize v > 1024 then
                           Val.vdict [("_compressed", Val.vbool true),
                                      ("_data", Val.vencoded v)]
                         else v),
               created_at := now, accessed_at := now, access_count := 1,
               ttl := SmartCacheManager.pyOrTTL (some 0) m.default_ttl } := by
      rw [hcache, lookupDict_setKey]
      simp
    exact ⟨_, hlook, by simp [SmartCacheManager.pyOrTTL]⟩
  · simp [SmartCacheManager.pyOrTTL]

/-- C10: `get` returns None on a miss, on an expired key, and also when the
key is present and unexpired but its stored logical value is None — at the
public interface a cached None is indistinguishable from a miss, although
the present-None case still increments the internal hit counter; the
`cached` decorator therefore re-executes the wrapped function whenever the
cached result is None. -/
theorem claim_C10_cached_none_equals_miss (m : SmartCacheManager)
    (key : String) (now : Int) :
    (lookupDict m.cache key = none → (m.get key now).1 = .ok .vnone) ∧
    (∀ e, lookupDict m.cache key = some e → e.is_expired now = true →
      (m.get key now).1 = .ok .vnone) ∧
    (∀ e, lookupDict m.cache key = some e → e.is_expired now = false →
      e.value = .vnone →
      (m.get key now).1 = .ok .vnone ∧
      (m.get key now).2.hits = m.hits + 1) ∧
    (∀ fval ttl, (m.get key now).1 = .ok .vnone →
      ∃ m2, cachedWrapper m key fval ttl now = .ok (fval, m2, true)) := by
  refine ⟨?_, ?_, ?_, ?_⟩
  · intro hl
    rw [SmartCacheManager.get_miss m key now hl]
  · intro e hl hexp
    rw [SmartCacheManager.get_expired m key now e hl hexp]
  · intro e hl hexp hval
    refine ⟨?_, SmartCacheManager.get_hit_hits m key now e hl hexp⟩
    rw [SmartCacheManager.get_hit_fst m key now e hl hexp, hval]
    rfl
  · intro fval ttl hget
    unfold cachedWrapper
    rcases hg : m.get key now with ⟨r, m1⟩
    rw [hg] at hget
    dsimp only at hget
    rw [hget]
    exact ⟨(m1.set key fval ttl false now).2, rfl⟩


theorem claim_C10_witness :
    (∃ m2, cachedWrapper noneEntryCache "k" (.vint 42) none 0 =
      .ok (.vint 42, m2, true)) ∧
    (noneEntryCache.get "k" 0).2.hits = 0 + 1 := by
  constructor
  · exact (claim_C10_cached_none_equals_miss noneEntryCache "k" 0).2.2.2
      (.vint 42) none
      ((claim_C10_cached_none_equals_miss noneEntryCache "k" 0).2.2.1
        { value := .vnone, created_at := 0, accessed_at := 0,
          access_count := 1, ttl := some 3600 } rfl rfl rfl).1
  · exact ((claim_C10_cached_none_equals_miss noneEntryCache "k" 0).2.2.1
      { value := .vnone, created_at := 0, accessed_at := 0,
        access_count := 1, ttl := some 3600 } rfl rfl rfl).2

/-! ## Claim theorems: orchestrator merge -/


theorem lookupDict_dict_update (r : List (String × Val)) :
    ∀ (d : List (String × Val)) (k : String), (keysOf r).Nodup →
    lookupDict (dict_update d r) k =
      match lookupDict r k with
      | some v => some v
      | none => lookupDict d k := by
  induction r with
  | nil => intro d k _; rfl
  | cons kv rest ih =>
      intro d k hnd
      obtain ⟨a, w⟩ := kv
      simp only [keysOf_cons, List.nodup_cons] at hnd
      have hstep : dict_update d ((a, w) :: rest) =
          dict_update (setKey d a w) rest := rfl
      rw [hstep, ih (setKey d a w) k hnd.2]
      by_cases hak : a = k
      · subst hak
        have hrest : lookupDict rest a = none :=
          (lookupDict_eq_none rest a).mpr hnd.1
        rw [hrest]
        simp [lookupDict, lookupDict_setKey]
      · have h2 : lookupDict ((a, w) :: rest) k = lookupDict rest k := by
          simp [lookupDict, hak]
        rw [h2]
        cases hr : lookupDict rest k with
        | some v => rfl
        | none => simp [lookupDict_setKey, Ne.symm hak]

theorem lookupDict_foldl_update (rs : List (List (String × Val))) :
    ∀ (d : List (String × Val)) (k : String),
    (∀ r ∈ rs, (keysOf r).Nodup) →
    lookupDict (rs.foldl dict_update d) k =
      rs.foldl
        (fun acc r =>
          match lookupDict r k with
          | some v => some v
          | none => acc) (lookupDict d k) := by
  induction rs with
  | nil => intro d k _; rfl
  | cons r rest ih =>
      intro d k hnd
      simp only [List.foldl_cons]
      rw [ih (dict_update d r) k (fun r hr => hnd r (List.mem_cons_of_mem _ hr)),
        lookupDict_dict_update r d k (hnd r (List.mem_cons_self _ _))]

/-- C4 as stated is false: the merge step is `consolidated.update(result)`
over the surviving results in task order, so a field already populated by
an earlier (higher-priority) source IS overwritten by a later source, even
with an empty value.  Here the first source supplies title "A" and the
second supplies the empty string; the merged result carries the empty
string, not the first non-empty value. -/
theorem claim_C4_counterexample :
    lookupDict (enrich_merge
      [.ok [("title", .vstr "A")], .ok [("title", .vstr "")]]) "title" =
      some (.vstr "") ∧
    pyTruthy (.vstr "A") = true ∧
    pyTruthy (.vstr "") = false ∧
    lookupDict (enrich_merge
      [.ok [("title", .vstr "A")], .ok [("title", .vstr "")]]) "title" ≠
      some (.vstr "A") := by
  refine ⟨rfl, rfl, rfl, ?_⟩
  intro h
  have h' : (some (Val.vstr "") : Option Val) = some (.vstr "A") := h
  injection h' with h1
  injection h1 with h2
  exact absurd h2 (by decide)

/-- C4 (amended): the merge iterates the surviving upstream results (those
that neither raised nor returned an empty dict) in task order and combines
them with `dict.update`, so each field's final value is the value from the
LAST surviving result containing that field — later sources overwrite
earlier ones, empty values included; only entirely-empty results are
excluded. -/
theorem claim_C4_merge_is_last_writer_wins
    (outcomes : List (Except Exc (List (String × Val)))) (k : String)
    (h : ∀ r ∈ collect_results outcomes, (keysOf r).Nodup) :
    lookupDict (enrich_merge outcomes) k =
      lastLookup k (collect_results outcomes) := by
  unfold enrich_merge lastLookup
  rw [lookupDict_foldl_update (collect_results outcomes) [] k h]
  rfl

theorem claim_C4_witness :
    lookupDict (enrich_merge
      [.ok [("title", .vstr "A"), ("authors", .vstr "X")],
       .error .circuitBreakerOpen,
       .ok [("title", .vstr "")]]) "title" =
      lastLookup "title" (collect_results
        [.ok [("title", .vstr "A"), ("authors", .vstr "X")],
         .error .circuitBreakerOpen,
         .ok [("title", .vstr "")]]) :=
  claim_C4_merge_is_last_writer_wins _ "title" (by decide)

/-! ## Cache capacity invariant (C2) -/

namespace SmartCacheManager

theorem access_order_compress (m : SmartCacheManager) (v : Val) :
    ((m.compress_if_needed v).2).access_order = m.access_order := by
  unfold compress_if_needed
  dsimp only
  split_ifs <;> rfl

theorem freq_compress (m : SmartCacheManager) (v : Val) :
    ((m.compress_if_needed v).2).frequency_counter = m.frequency_counter := by
  unfold compress_if_needed
  dsimp only
  split_ifs <;> rfl

theorem evictions_compress (m : SmartCacheManager) (v : Val) :
    ((m.compress_if_needed v).2).evictions = m.evictions := by
  unfold compress_if_needed
  dsimp only
  split_ifs <;> rfl

theorem freq_touchOrder (m : SmartCacheManager) (k : String) :
    (touchOrder m k).frequency_counter = m.frequency_counter := by
  unfold touchOrder
  split_ifs <;> rfl

theorem access_order_touchFreq (m : SmartCacheManager) (k : String) :
    (touchFreq m k).access_order = m.access_order := by
  unfold touchFreq
  split_ifs <;> rfl

theorem access_order_initFreq (m : SmartCacheManager) (k : String) (b : Bool) :
    (initFreq m k b).access_order = m.access_order := by
  unfold initFreq
  split_ifs <;> rfl

theorem evictions_touchOrder (m : SmartCacheManager) (k : String) :
    (touchOrder m k).evictions = m.evictions := by
  unfold touchOrder
  split_ifs <;> rfl

theorem evictions_touchFreq (m : SmartCacheManager) (k : String) :
    (touchFreq m k).evictions = m.evictions := by
  unfold touchFreq
  split_ifs <;> rfl

theorem evictions_initFreq (m : SmartCacheManager) (k : String) (b : Bool) :
    (initFreq m k b).evictions = m.evictions := by
  unfold initFreq
  split_ifs <;> rfl

theorem delete_absent (m : SmartCacheManager) (k : String)
    (h : lookupDict m.cache k = none) : m.delete k = (false, m) := by
  unfold delete
  rw [if_pos (by simp [h])]

theorem delete_present (m : SmartCacheManager) (k : String)
    (h : (lookupDict m.cache k).isSome) :
    m.delete k = (true,
      { m with cache := removeKey m.cache k,
               access_order :=
                 if m.access_order.contains k then
                   removeFirst k m.access_order
                 else m.access_order,
               frequency_counter :=
                 if (lookupDict m.frequency_counter k).isSome then
                   removeKey m.frequency_counter k
                 else m.frequency_counter }) := by
  unfold delete
  rw [if_neg (by simp_all [Option.isNone_iff_eq_none, Option.isSome_iff_ne_none])]
  dsimp only
  split_ifs <;> rfl

theorem insertByFreq_perm (x : String × Int) (l : List (String × Int)) :
    (insertByFreq x l).Perm (x :: l) := by
  induction l with
  | nil => simp [insertByFreq]
  | cons y ys ih =>
      unfold insertByFreq
      split_ifs
      · exact (ih.cons y).trans (List.Perm.swap x y ys)
      · exact List.Perm.refl _

theorem sortByFreq_perm (l : List (String × Int)) :
    (sortByFreq l).Perm l := by
  induction l with
  | nil => simp [sortByFreq]
  | cons x xs ih =>
      exact (insertByFreq_perm x (sortByFreq xs)).trans (ih.cons x)

theorem insertByCreated_perm (x : String × CacheEntry)
    (l : List (String × CacheEntry)) :
    (insertByCreated x l).Perm (x :: l) := by
  induction l with
  | nil => simp [insertByCreated]
  | cons y ys ih =>
      unfold insertByCreated
      split_ifs
      · exact (ih.cons y).trans (List.Perm.swap x y ys)
      · exact List.Perm.refl _

theorem sortByCreated_perm (l : List (String × CacheEntry)) :
    (sortByCreated l).Perm l := by
  induction l with
  | nil => simp [sortByCreated]
  | cons x xs ih =>
      exact (insertByCreated_perm x (sortByCreated xs)).trans (ih.cons x)



theorem delete_coreWF (m : SmartCacheManager) (k : String)
    (h : cacheCoreWF m) :
    cacheCoreWF (m.delete k).2 ∧
    (k ∈ keysOf m.cache →
      (m.delete k).2.cache.length + 1 = m.cache.length) ∧
    (k ∉ keysOf m.cache → (m.delete k).2 = m) ∧
    (m.delete k).2.cache.length ≤ m.cache.length ∧
    (∀ j, j ∈ keysOf (m.delete k).2.cache → j ∈ keysOf m.cache) := by
  obtain ⟨hnd, hlru, hlfu⟩ := h
  by_cases hk : k ∈ keysOf m.cache
  · have hsome : (lookupDict m.cache k).isSome :=
      (lookupDict_isSome m.cache k).mpr hk
    rw [delete_present m k hsome]
    dsimp only
    refine ⟨⟨nodup_keysOf_removeKey _ _ hnd, ?_, ?_⟩, ?_, ?_, ?_, ?_⟩
    · intro hs
      obtain ⟨hno, hiff⟩ := hlru hs
      have hkord : k ∈ m.access_order := (hiff k).mpr hk
      rw [if_pos (by simpa using hkord)]
      refine ⟨nodup_removeFirst _ _ hno, ?_⟩
      intro j
      rw [mem_removeFirst _ _ _ hno, mem_keysOf_removeKey _ _ _ hnd, hiff j]
    · intro hs
      obtain ⟨hno, hiff⟩ := hlfu hs
      have hkfreq : k ∈ keysOf m.frequency_counter := (hiff k).mpr hk
      rw [if_pos ((lookupDict_isSome _ _).mpr hkfreq)]
      refine ⟨nodup_keysOf_removeKey _ _ hno, ?_⟩
      intro j
      rw [mem_keysOf_removeKey _ _ _ hno, mem_keysOf_removeKey _ _ _ hnd,
        hiff j]
    · intro _
      exact length_removeKey m.cache k hk
    · intro habs
      exact absurd hk habs
    · have := length_removeKey m.cache k hk
      omega
    · intro j hj
      exact ((mem_keysOf_removeKey m.cache k j hnd).mp hj).1
  · have hnone : lookupDict m.cache k = none :=
      (lookupDict_eq_none m.cache k).mpr hk
    rw [delete_absent m k hnone]
    exact ⟨⟨hnd, hlru, hlfu⟩, fun habs => absurd habs hk, fun _ => rfl,
      le_refl _, fun j hj => hj⟩

end SmartCacheManager

namespace SmartCacheManager

theorem touchOrder_not_lru (m : SmartCacheManager) (k : String)
    (h : ¬ m.strategy = .lru) : touchOrder m k = m := by
  unfold touchOrder
  rw [if_neg h]

theorem touchFreq_not_lfu (m : SmartCacheManager) (k : String)
    (h : ¬ m.strategy = .lfu) : touchFreq m k = m := by
  unfold touchFreq
  rw [if_neg h]

theorem touchOrder_inv (m : SmartCacheManager) (k : String)
    (hno : m.access_order.Nodup)
    (hmem : ∀ j, j ≠ k → (j ∈ m.access_order ↔ j ∈ keysOf m.cache))
    (hk : k ∈ keysOf m.cache) :
    (touchOrder m k).access_order.Nodup ∧
    (m.strategy = .lru →
      ∀ j, j ∈ (touchOrder m k).access_order ↔ j ∈ keysOf m.cache) ∧
    (¬ m.strategy = .lru → (touchOrder m k).access_order = m.access_order) := by
  by_cases hs : m.strategy = .lru
  · unfold touchOrder
    rw [if_pos hs]
    dsimp only
    have hrf : ∀ j, j ∈ (if m.access_order.contains k then
        removeFirst k m.access_order else m.access_order) ↔
        (j ∈ m.access_order ∧ j ≠ k) := by
      intro j
      split_ifs with hc
      · exact mem_removeFirst m.access_order k j hno
      · simp only [List.contains_eq_any_beq] at hc
        have hcm : k ∉ m.access_order := by
          intro hmem
          exact hc (by simpa using hmem)
        constructor
        · intro hj
          exact ⟨hj, fun hjk => hcm (hjk ▸ hj)⟩
        · exact fun hj => hj.1
    have hrfno : (if m.access_order.contains k then
        removeFirst k m.access_order else m.access_order).Nodup := by
      split_ifs
      · exact nodup_removeFirst _ _ hno
      · exact hno
    refine ⟨?_, ?_, fun habs => absurd hs habs⟩
    · rw [List.nodup_append]
      refine ⟨hrfno, List.nodup_singleton k, ?_⟩
      intro j hj hj'
      simp only [List.mem_singleton] at hj'
      subst hj'
      exact ((hrf j).mp hj).2 rfl
    · intro _ j
      rw [List.mem_append, hrf j, List.mem_singleton]
      by_cases hjk : j = k
      · subst hjk
        simp [hk]
      · simp only [hjk, or_false, and_true, ne_eq, not_false_iff, and_iff_left]
        exact hmem j hjk
  · rw [touchOrder_not_lru m k hs]
    exact ⟨hno, fun habs => absurd habs hs, fun _ => rfl⟩

theorem touchFreq_inv (m : SmartCacheManager) (k : String)
    (hno : (keysOf m.frequency_counter).Nodup)
    (hkf : m.strategy = .lfu → k ∈ keysOf m.frequency_counter) :
    (keysOf (touchFreq m k).frequency_counter).Nodup ∧
    (∀ j, j ∈ keysOf (touchFreq m k).frequency_counter ↔
      j ∈ keysOf m.frequency_counter) := by
  by_cases hs : m.strategy = .lfu
  · unfold touchFreq
    rw [if_pos hs]
    dsimp only [bumpFreq]
    rw [keysOf_setKey_mem _ _ _ (hkf hs)]
    exact ⟨hno, fun j => Iff.rfl⟩
  · rw [touchFreq_not_lfu m k hs]
    exact ⟨hno, fun j => Iff.rfl⟩

theorem initFreq_inv (m : SmartCacheManager) (k : String) (wu : Bool)
    (hno : (keysOf m.frequency_counter).Nodup)
    (hwu : wu = true → k ∈ keysOf m.frequency_counter)
    (hwu' : wu = false → k ∉ keysOf m.frequency_counter) :
    (keysOf (initFreq m k wu).frequency_counter).Nodup ∧
    (∀ j, j ∈ keysOf (initFreq m k wu).frequency_counter ↔
      (j ∈ keysOf m.frequency_counter ∨ (m.strategy = .lfu ∧ wu = false ∧ j = k))) := by
  unfold initFreq
  by_cases hs : m.strategy = .lfu ∧ !wu
  · rw [if_pos hs]
    dsimp only
    cases wu with
    | true => simp at hs
    | false =>
        have hk : k ∉ keysOf m.frequency_counter := hwu' rfl
        rw [keysOf_setKey_not_mem _ _ _ hk]
        constructor
        · simp [List.nodup_append, hno, hk]
        · intro j
          simp [hs.1]
  · rw [if_neg hs]
    refine ⟨hno, fun j => ?_⟩
    constructor
    · exact fun hj => Or.inl hj
    · rintro (hj | ⟨hlfu, hwuf, hjk⟩)
      · exact hj
      · subst hjk
        exact absurd ⟨hlfu, by simp [hwuf]⟩ hs

end SmartCacheManager

namespace SmartCacheManager

theorem compress_snd (m : SmartCacheManager) (v : Val) :
    (m.compress_if_needed v).2 =
      { m with compressions := (m.compress_if_needed v).2.compressions } := by
  unfold compress_if_needed
  dsimp only
  split_ifs <;> rfl

/-- The tail of `set` after eviction and compression: inserting the fresh
entry and updating the recency/frequency structures preserves structural
well-formedness, and the final cache dict is exactly the `setKey` result. -/
theorem set_tail_WF (mid : SmartCacheManager) (k : String) (e : CacheEntry)
    (c : Nat) (wu : Bool) (h : cacheCoreWF mid)
    (hwu : wu = (lookupDict mid.cache k).isSome) :
    cacheCoreWF (initFreq (touchOrder
      { mid with compressions := c, cache := setKey mid.cache k e } k) k wu) ∧
    (initFreq (touchOrder
      { mid with compressions := c, cache := setKey mid.cache k e } k) k
        wu).cache = setKey mid.cache k e := by
  obtain ⟨hnd, hlru, hlfu⟩ := h
  have hcache2 : ∀ mx : SmartCacheManager, ∀ b,
      (initFreq (touchOrder mx k) k b).cache = mx.cache := by
    intro mx b
    rw [cache_initFreq, cache_touchOrder]
  set m1 : SmartCacheManager :=
    { mid with compressions := c, cache := setKey mid.cache k e } with hm1
  have hm1cache : m1.cache = setKey mid.cache k e := rfl
  have hm1keys : ∀ j, j ∈ keysOf m1.cache ↔ j ∈ keysOf mid.cache ∨ j = k := by
    intro j
    rw [hm1cache]
    exact mem_keysOf_setKey mid.cache k e j
  have hkm1 : k ∈ keysOf m1.cache := by
    rw [hm1keys]
    exact Or.inr rfl
  have hndm1 : (keysOf m1.cache).Nodup := by
    rw [hm1cache]
    exact nodup_keysOf_setKey mid.cache k e hnd
  have hordm1 : m1.access_order = mid.access_order := rfl
  have hfreqm1 : m1.frequency_counter = mid.frequency_counter := rfl
  have hstratm1 : m1.strategy = mid.strategy := rfl
  have hstratfin : (initFreq (touchOrder m1 k) k wu).strategy = m1.strategy :=
    (strategy_eq (configOf_initFreq _ _ _)).trans
      (strategy_eq (configOf_touchOrder _ _))
  refine ⟨⟨?_, ?_, ?_⟩, hcache2 m1 wu⟩
  · rw [hcache2 m1 wu, hm1cache]
    exact hndm1
  · intro hs
    rw [hstratfin] at hs
    have hsm1 : m1.strategy = .lru := hs
    obtain ⟨hno, hiff⟩ := hlru hsm1
    have hto := touchOrder_inv m1 k (by rw [hordm1]; exact hno)
      (by
        intro j hjk
        rw [hordm1, hm1keys]
        rw [hiff j]
        simp [hjk])
      hkm1
    have hord3 : (initFreq (touchOrder m1 k) k wu).access_order =
        (touchOrder m1 k).access_order := access_order_initFreq _ _ _
    rw [hord3, hcache2 m1 wu]
    exact ⟨hto.1, fun j => by rw [hto.2.1 hsm1 j, hm1cache]⟩
  · intro hs
    rw [hstratfin] at hs
    have hsm1 : m1.strategy = .lfu := hs
    obtain ⟨hno, hiff⟩ := hlfu hsm1
    have hfr2 : (touchOrder m1 k).frequency_counter =
        mid.frequency_counter := by
      rw [freq_touchOrder, hfreqm1]
    have hstr2 : (touchOrder m1 k).strategy = m1.strategy :=
      strategy_eq (configOf_touchOrder m1 k)
    have hif := initFreq_inv (touchOrder m1 k) k wu
      (by rw [hfr2]; exact hno)
      (by
        intro hwt
        rw [hfr2, hiff k]
        rw [hwu] at hwt
        exact (lookupDict_isSome mid.cache k).mp hwt)
      (by
        intro hwf
        rw [hfr2, hiff k]
        intro hmem
        rw [hwu] at hwf
        exact absurd ((lookupDict_isSome mid.cache k).mpr hmem)
          (by simp [hwf]))
    refine ⟨hif.1, ?_⟩
    intro j
    rw [hif.2 j, hfr2, hcache2 m1 wu, hm1cache, mem_keysOf_setKey, hiff j]
    constructor
    · rintro (hj | ⟨_, _, hjk⟩)
      · exact Or.inl hj
      · exact Or.inr hjk
    · rintro (hj | hjk)
      · exact Or.inl hj
      · by_cases hkm : k ∈ keysOf mid.cache
        · rw [hjk]
          exact Or.inl hkm
        · refine Or.inr ⟨hstr2.trans hsm1, ?_, hjk⟩
          rw [hwu]
          simp [(lookupDict_eq_none mid.cache k).mpr hkm]

end SmartCacheManager

namespace SmartCacheManager

theorem keysOf_ne_nil {α : Type} (d : List (String × α)) (h : d ≠ []) :
    keysOf d ≠ [] := by
  cases d with
  | nil => exact absurd rfl h
  | cons kv rest => simp [keysOf]

theorem keysOf_filter_subset {α : Type} (d : List (String × α))
    (p : String × α → Bool) (j : String) (h : j ∈ keysOf (d.filter p)) :
    j ∈ keysOf d := by
  unfold keysOf at h ⊢
  obtain ⟨kv, hkv, hj⟩ := List.mem_map.mp h
  exact List.mem_map.mpr ⟨kv, List.mem_of_mem_filter hkv, hj⟩

theorem evictLFUList_single (m : SmartCacheManager) (k : String) (f : Int)
    (h : (lookupDict m.cache k).isSome) :
    evictLFUList m [(k, f)] =
      { m with cache := removeKey m.cache k,
               frequency_counter := removeKey m.frequency_counter k,
               evictions := m.evictions + 1 } := by
  unfold evictLFUList
  dsimp only
  rw [if_pos (by simpa using h)]
  rfl

theorem deleteEvict_single (m : SmartCacheManager) (k : String) :
    deleteEvict m [k] =
      { (m.delete k).2 with evictions := (m.delete k).2.evictions + 1 } := by
  unfold deleteEvict
  rfl

/-- Evicting one entry from a non-empty cache under LRU, LFU or TTL removes
exactly one cached entry, preserves structural well-formedness, and only
removes keys. -/
theorem evict_one (m : SmartCacheManager) (now : Int) (h : cacheCoreWF m)
    (hstrat : m.strategy = .lru ∨ m.strategy = .lfu ∨ m.strategy = .ttl)
    (hne : m.cache ≠ []) :
    cacheCoreWF (m.evict_entries 1 now) ∧
    (m.evict_entries 1 now).cache.length + 1 = m.cache.length ∧
    (∀ j, j ∈ keysOf (m.evict_entries 1 now).cache → j ∈ keysOf m.cache) := by
  obtain ⟨hnd, hlru, hlfu⟩ := h
  obtain ⟨k0', hk0'⟩ : ∃ j, j ∈ keysOf m.cache := by
    cases hc : m.cache with
    | nil => exact absurd hc hne
    | cons kv rest => exact ⟨kv.1, by simp [hc, keysOf]⟩
  rcases hstrat with hs | hs | hs
  · -- LRU
    obtain ⟨hno, hiff⟩ := hlru hs
    have horder_ne : m.access_order ≠ [] := by
      intro habs
      have := (hiff k0').mpr hk0'
      rw [habs] at this
      simp at this
    rcases horder : m.access_order with _ | ⟨k0, rest⟩
    · exact absurd horder horder_ne
    have hk0 : k0 ∈ keysOf m.cache := by
      rw [← hiff k0, horder]
      simp
    have hev : m.evict_entries 1 now =
        { m with access_order := rest, cache := removeKey m.cache k0,
                 evictions := m.evictions + 1 } := by
      unfold evict_entries evictLRU
      rw [hs]
      dsimp only
      rw [horder]
      dsimp only
      rw [if_pos (by simpa using (lookupDict_isSome m.cache k0).mpr hk0)]
      rfl
    rw [hev]
    rw [horder] at hno
    simp only [List.nodup_cons] at hno
    refine ⟨⟨nodup_keysOf_removeKey _ _ hnd, ?_, ?_⟩, ?_, ?_⟩
    · intro _
      refine ⟨hno.2, ?_⟩
      intro j
      rw [mem_keysOf_removeKey _ _ _ hnd, ← hiff j, horder]
      simp only [List.mem_cons]
      constructor
      · intro hj
        exact ⟨Or.inr hj, fun hjk => hno.1 (hjk ▸ hj)⟩
      · rintro ⟨hj | hj, hne2⟩
        · exact absurd hj hne2
        · exact hj
    · intro hlf
      have : m.strategy = .lfu := hlf
      rw [hs] at this
      simp at this
    · exact length_removeKey m.cache k0 hk0
    · intro j hj
      exact ((mem_keysOf_removeKey m.cache k0 j hnd).mp hj).1
  · -- LFU
    obtain ⟨hno, hiff⟩ := hlfu hs
    have hfreq_ne : m.frequency_counter ≠ [] := by
      intro habs
      have := (hiff k0').mpr hk0'
      rw [habs] at this
      simp [keysOf] at this
    have hsort_ne : sortByFreq m.frequency_counter ≠ [] := by
      intro habs
      have hp := sortByFreq_perm m.frequency_counter
      rw [habs] at hp
      exact hfreq_ne hp.nil_eq.symm
    rcases hsort : sortByFreq m.frequency_counter with _ | ⟨⟨k0, f0⟩, srest⟩
    · exact absurd hsort hsort_ne
    have hmem : (k0, f0) ∈ m.frequency_counter := by
      have hp := sortByFreq_perm m.frequency_counter
      rw [hsort] at hp
      exact hp.mem_iff.mp (List.mem_cons_self _ _)
    have hk0f : k0 ∈ keysOf m.frequency_counter := by
      unfold keysOf
      exact List.mem_map.mpr ⟨(k0, f0), hmem, rfl⟩
    have hk0 : k0 ∈ keysOf m.cache := (hiff k0).mp hk0f
    have hev : m.evict_entries 1 now =
        { m with cache := removeKey m.cache k0,
                 frequency_counter := removeKey m.frequency_counter k0,
                 evictions := m.evictions + 1 } := by
      simp only [evict_entries, hs]
      rw [if_neg (by simp [hfreq_ne]), hsort]
      rw [show ((k0, f0) :: srest).take 1 = [(k0, f0)] from rfl]
      rw [evictLFUList_single m k0 f0
        ((lookupDict_isSome m.cache k0).mpr hk0)]
      rw [hs]
    rw [hev]
    refine ⟨⟨nodup_keysOf_removeKey _ _ hnd, ?_, ?_⟩, ?_, ?_⟩
    · intro hlr
      have : m.strategy = .lru := hlr
      rw [hs] at this
      simp at this
    · intro _
      refine ⟨nodup_keysOf_removeKey _ _ hno, ?_⟩
      intro j
      rw [mem_keysOf_removeKey _ _ _ hno, mem_keysOf_removeKey _ _ _ hnd,
        hiff j]
    · exact length_removeKey m.cache k0 hk0
    · intro j hj
      exact ((mem_keysOf_removeKey m.cache k0 j hnd).mp hj).1
  · -- TTL
    have hcore : cacheCoreWF m := ⟨hnd, hlru, hlfu⟩
    by_cases hexp :
        keysOf (m.cache.filter fun kv => kv.2.is_expired now) = []
    · -- no expired entries: the oldest-created entry is deleted
      have hsort_ne : sortByCreated m.cache ≠ [] := by
        intro habs
        have hp := sortByCreated_perm m.cache
        rw [habs] at hp
        exact hne hp.nil_eq.symm
      rcases hsort : sortByCreated m.cache with _ | ⟨⟨k0, e0⟩, srest⟩
      · exact absurd hsort hsort_ne
      have hmem : (k0, e0) ∈ m.cache := by
        have hp := sortByCreated_perm m.cache
        rw [hsort] at hp
        exact hp.mem_iff.mp (List.mem_cons_self _ _)
      have hk0 : k0 ∈ keysOf m.cache := by
        unfold keysOf
        exact List.mem_map.mpr ⟨(k0, e0), hmem, rfl⟩
      have hev : m.evict_entries 1 now =
          { (m.delete k0).2 with
            evictions := (m.delete k0).2.evictions + 1 } := by
        simp only [evict_entries, hs]
        rw [hexp]
        simp only [List.take_nil, List.length_nil, deleteEvict]
        rw [if_pos (by norm_num)]
        rw [hsort]
        simp only [keysOf_cons]
        norm_num
        exact deleteEvict_single m k0
      rw [hev]
      obtain ⟨hc, hlen, _, _, _⟩ := delete_coreWF m k0 hcore
      exact ⟨hc, hlen hk0, fun j hj =>
        ((delete_coreWF m k0 hcore).2.2.2.2 j hj)⟩
    · -- at least one expired entry: the first expired key is deleted
      rcases hexpl :
          keysOf (m.cache.filter fun kv => kv.2.is_expired now) with
        _ | ⟨k0, krest⟩
      · exact absurd hexpl hexp
      have hk0 : k0 ∈ keysOf m.cache := by
        refine keysOf_filter_subset m.cache
          (fun kv => kv.2.is_expired now) k0 ?_
        rw [hexpl]
        simp
      have hev : m.evict_entries 1 now =
          { (m.delete k0).2 with
            evictions := (m.delete k0).2.evictions + 1 } := by
        simp only [evict_entries, hs]
        rw [hexpl]
        rw [show List.take 1 (k0 :: krest) = [k0] from rfl]
        rw [deleteEvict_single]
        rw [if_neg (by push_cast; simp)]
      rw [hev]
      obtain ⟨hc, hlen, _, _, hsub⟩ := delete_coreWF m k0 hcore
      exact ⟨hc, hlen hk0, fun j hj => hsub j hj⟩

end SmartCacheManager

namespace SmartCacheManager

/-- The tail of `get`'s hit path: replacing the entry for a present key and
refreshing the recency/frequency structures preserves structural
well-formedness and leaves the key set unchanged. -/
theorem get_tail_WF (m : SmartCacheManager) (key : String) (e' : CacheEntry)
    (h : cacheCoreWF m) (hk : key ∈ keysOf m.cache) :
    cacheCoreWF (touchFreq (touchOrder
      { m with cache := setKey m.cache key e' } key) key) ∧
    (touchFreq (touchOrder
      { m with cache := setKey m.cache key e' } key) key).cache =
      setKey m.cache key e' := by
  obtain ⟨hnd, hlru, hlfu⟩ := h
  set m1 : SmartCacheManager := { m with cache := setKey m.cache key e' }
    with hm1
  have hm1cache : m1.cache = setKey m.cache key e' := rfl
  have hkeys : keysOf m1.cache = keysOf m.cache := by
    rw [hm1cache]
    exact keysOf_setKey_mem m.cache key e' hk
  have hcache2 : (touchFreq (touchOrder m1 key) key).cache = m1.cache := by
    rw [cache_touchFreq, cache_touchOrder]
  have hstratfin : (touchFreq (touchOrder m1 key) key).strategy =
      m1.strategy :=
    (strategy_eq (configOf_touchFreq _ _)).trans
      (strategy_eq (configOf_touchOrder _ _))
  refine ⟨⟨?_, ?_, ?_⟩, hcache2⟩
  · rw [hcache2, hm1cache]
    exact nodup_keysOf_setKey m.cache key e' hnd
  · intro hs
    rw [hstratfin] at hs
    have hsm : m.strategy = .lru := hs
    obtain ⟨hno, hiff⟩ := hlru hsm
    have hto := touchOrder_inv m1 key (by exact hno)
      (by
        intro j _
        show j ∈ m.access_order ↔ j ∈ keysOf m1.cache
        rw [hkeys]
        exact hiff j)
      (by rw [hkeys]; exact hk)
    have hord : (touchFreq (touchOrder m1 key) key).access_order =
        (touchOrder m1 key).access_order := access_order_touchFreq _ _
    rw [hord, hcache2]
    exact ⟨hto.1, fun j => by rw [hto.2.1 hs j, hkeys]⟩
  · intro hs
    rw [hstratfin] at hs
    have hsm : m.strategy = .lfu := hs
    obtain ⟨hno, hiff⟩ := hlfu hsm
    have hfr : (touchOrder m1 key).frequency_counter =
        m.frequency_counter := freq_touchOrder _ _
    have htf := touchFreq_inv (touchOrder m1 key) key
      (by rw [hfr]; exact hno)
      (by
        intro _
        rw [hfr]
        exact (hiff key).mpr hk)
    refine ⟨htf.1, fun j => ?_⟩
    rw [htf.2 j, hfr, hcache2, hkeys]
    exact hiff j

theorem get_hit_snd (m : SmartCacheManager) (key : String) (now : Int)
    (e e' : CacheEntry) (hl : lookupDict m.cache key = some e)
    (hexpf : e.is_expired now = false)
    (he' : e' = { e with accessed_at := now,
                         access_count := e.access_count + 1 }) :
    (m.get key now).2 =
      { touchFreq (touchOrder
          { m with cache := setKey m.cache key e' } key) key with
        hits := (touchFreq (touchOrder
          { m with cache := setKey m.cache key e' } key) key).hits + 1 } := by
  subst he'
  simp only [get, hl]
  rw [if_neg (by simp [hexpf])]

theorem get_WF (m : SmartCacheManager) (key : String) (now : Int)
    (h : cacheWF m) : cacheWF (m.get key now).2 := by
  obtain ⟨hcore, hlen⟩ := h
  cases hl : lookupDict m.cache key with
  | none =>
      rw [get_miss m key now hl]
      exact ⟨hcore, hlen⟩
  | some e =>
      by_cases hexp : e.is_expired now
      · rw [get_expired m key now e hl hexp]
        obtain ⟨hc, _, _, hle, _⟩ := delete_coreWF m key hcore
        refine ⟨hc, ?_⟩
        have hmx := max_size_eq (configOf_delete m key)
        show (m.delete key).2.cache.length ≤ (m.delete key).2.max_size
        omega
      · have hexpf : e.is_expired now = false := by
          simpa using hexp
        rw [get_hit_snd m key now e
          { e with accessed_at := now, access_count := e.access_count + 1 }
          hl hexpf rfl]
        have hk : key ∈ keysOf m.cache :=
          (lookupDict_isSome m.cache key).mp (by simp [hl])
        obtain ⟨hc, hcache⟩ := get_tail_WF m key
          { e with accessed_at := now, access_count := e.access_count + 1 }
          hcore hk
        refine ⟨hc, ?_⟩
        show (touchFreq (touchOrder _ key) key).cache.length ≤
          (touchFreq (touchOrder _ key) key).max_size
        rw [hcache, length_setKey_mem m.cache key _ hk]
        have hmx : ∀ e' : CacheEntry, (touchFreq (touchOrder
            { m with cache := setKey m.cache key e' } key)
              key).max_size = m.max_size := fun e' =>
          (max_size_eq (configOf_touchFreq _ _)).trans
            (max_size_eq (configOf_touchOrder _ _))
        rw [hmx]
        exact hlen

theorem set_WF (m : SmartCacheManager) (k : String) (v : Val)
    (ttl : Option Int) (force : Bool) (now : Int) (h : cacheWF m)
    (hstrat : m.strategy = .lru ∨ m.strategy = .lfu ∨ m.strategy = .ttl)
    (hmax : 1 ≤ m.max_size) : cacheWF (m.set k v ttl force now).2 := by
  obtain ⟨hcore, hlen⟩ := h
  unfold set
  dsimp only
  rw [ite_self]
  by_cases hev : m.cache.length ≥ m.max_size ∧ (lookupDict m.cache k).isNone
  · rw [if_pos hev]
    have hne : m.cache ≠ [] := by
      intro habs
      rw [habs] at hev
      simp at hev
      omega
    obtain ⟨hcoremid, hlenmid, _⟩ := evict_one m now hcore hstrat hne
    rw [compress_snd]
    have htail := set_tail_WF (m.evict_entries 1 now) k
      { value := ((m.evict_entries 1 now).compress_if_needed v).1,
        created_at := now, accessed_at := now, access_count := 1,
        ttl := pyOrTTL ttl (m.evict_entries 1 now).default_ttl }
      ((m.evict_entries 1 now).compress_if_needed v).2.compressions
      ((lookupDict (m.evict_entries 1 now).cache k).isSome)
      hcoremid rfl
    refine ⟨htail.1, ?_⟩
    have hcacheq := htail.2
    have hl1 := length_setKey_le (m.evict_entries 1 now).cache k
      { value := ((m.evict_entries 1 now).compress_if_needed v).1,
        created_at := now, accessed_at := now, access_count := 1,
        ttl := pyOrTTL ttl (m.evict_entries 1 now).default_ttl }
    have hmx : (initFreq (touchOrder
        { m.evict_entries 1 now with
          compressions :=
            ((m.evict_entries 1 now).compress_if_needed v).2.compressions,
          cache := setKey (m.evict_entries 1 now).cache k
            { value := ((m.evict_entries 1 now).compress_if_needed v).1,
              created_at := now, accessed_at := now, access_count := 1,
              ttl := pyOrTTL ttl (m.evict_entries 1 now).default_ttl } } k)
          k ((lookupDict (m.evict_entries 1 now).cache k).isSome)).max_size =
        m.max_size := by
      refine ((max_size_eq (configOf_initFreq _ _ _)).trans
        ((max_size_eq (configOf_touchOrder _ _)).trans ?_))
      show (m.evict_entries 1 now).max_size = m.max_size
      exact max_size_eq (configOf_evict_entries m 1 now)
    rw [hcacheq] at *
    rw [hmx]
    omega
  · rw [if_neg hev]
    rw [compress_snd]
    have htail := set_tail_WF m k
      { value := (m.compress_if_needed v).1,
        created_at := now, accessed_at := now, access_count := 1,
        ttl := pyOrTTL ttl m.default_ttl }
      (m.compress_if_needed v).2.compressions
      ((lookupDict m.cache k).isSome) hcore rfl
    refine ⟨htail.1, ?_⟩
    have hcacheq := htail.2
    have hmx : (initFreq (touchOrder
        { m with
          compressions := (m.compress_if_needed v).2.compressions,
          cache := setKey m.cache k
            { value := (m.compress_if_needed v).1,
              created_at := now, accessed_at := now, access_count := 1,
              ttl := pyOrTTL ttl m.default_ttl } } k)
          k ((lookupDict m.cache k).isSome)).max_size = m.max_size := by
      exact (max_size_eq (configOf_initFreq _ _ _)).trans
        (max_size_eq (configOf_touchOrder _ _))
    rw [hcacheq] at *
    rw [hmx]
    by_cases hkm : k ∈ keysOf m.cache
    · rw [length_setKey_mem m.cache k _ hkm]
      exact hlen
    · have hnone : (lookupDict m.cache k).isNone := by
        simp [(lookupDict_eq_none m.cache k).mpr hkm]
      have hlt : m.cache.length < m.max_size := by
        rcases not_and_or.mp hev with hc | hc
        · omega
        · exact absurd hnone hc
      have := length_setKey_le m.cache k
        { value := (m.compress_if_needed v).1,
          created_at := now, accessed_at := now, access_count := 1,
          ttl := pyOrTTL ttl m.default_ttl }
      omega

end SmartCacheManager

theorem execOp_WF (m : SmartCacheManager) (op : CacheOp)
    (h : SmartCacheManager.cacheWF m)
    (hstrat : m.strategy = .lru ∨ m.strategy = .lfu ∨ m.strategy = .ttl)
    (hmax : 1 ≤ m.max_size) :
    SmartCacheManager.cacheWF (execOp m op) := by
  cases op with
  | set k v t f now => exact SmartCacheManager.set_WF m k v t f now h hstrat hmax
  | get k now => exact SmartCacheManager.get_WF m k now h
  | delete k =>
      obtain ⟨hcore, hlen⟩ := h
      obtain ⟨hc, _, _, hle, _⟩ := SmartCacheManager.delete_coreWF m k hcore
      refine ⟨hc, ?_⟩
      have hmx := SmartCacheManager.max_size_eq
        (SmartCacheManager.configOf_delete m k)
      show (m.delete k).2.cache.length ≤ (m.delete k).2.max_size
      omega

theorem execOps_WF (ops : List CacheOp) :
    ∀ m : SmartCacheManager, SmartCacheManager.cacheWF m →
    (m.strategy = .lru ∨ m.strategy = .lfu ∨ m.strategy = .ttl) →
    1 ≤ m.max_size →
    SmartCacheManager.cacheWF (execOps m ops) ∧
    (execOps m ops).max_size = m.max_size := by
  induction ops with
  | nil => exact fun m h _ _ => ⟨h, rfl⟩
  | cons op rest ih =>
      intro m h hstrat hmax
      have hcfg := configOf_execOp m op
      have hstrat' := SmartCacheManager.strategy_eq hcfg
      have hmax' := SmartCacheManager.max_size_eq hcfg
      have hstep := execOp_WF m op h hstrat hmax
      obtain ⟨hwf, hmx⟩ := ih (execOp m op) hstep
        (by rw [hstrat']; exact hstrat) (by rw [hmax']; exact hmax)
      exact ⟨hwf, by rw [show execOps m (op :: rest) =
        execOps (execOp m op) rest from rfl, hmx, hmax']⟩

/-- C2 as stated is false for a cache configured with capacity 0: with the
store at its capacity of 0, `_evict_entries` has nothing to remove, so the
subsequent insertion leaves 1 > 0 entries in the key→entry mapping. -/
theorem claim_C2_counterexample :
    (execOps (SmartCacheManager.init 0 (some 3600) .lru true)
      [.set "a" (.vint 1) none false 0]).cache.length = 1 ∧
    ¬ (execOps (SmartCacheManager.init 0 (some 3600) .lru true)
      [.set "a" (.vint 1) none false 0]).cache.length ≤ 0 := by
  constructor
  · rfl
  · intro h
    have h1 : (execOps (SmartCacheManager.init 0 (some 3600) .lru true)
      [.set "a" (.vint 1) none false 0]).cache.length = 1 := rfl
    omega

/-- C2 (amended): for every cache configured with capacity C ≥ 1 and
eviction strategy LRU, LFU or TTL, and every finite sequence of set, get
and delete operations (any keys, values, ttls and force flags), the number
of entries in the key→entry mapping is at most C after each operation
completes (inserting a new key into a full store synchronously evicts one
entry first); and setting a key that already exists never triggers
eviction and never changes the number of stored entries.  (The write-through
and write-behind strategy enum values have no `_evict_entries` branch, and a
capacity-0 store cannot evict below zero, so both are excluded.) -/
theorem claim_C2_capacity_invariant :
    (∀ (C : Nat) (dttl : Option Int) (strat : CacheStrategy) (comp : Bool)
      (ops : List CacheOp), 1 ≤ C →
      (strat = .lru ∨ strat = .lfu ∨ strat = .ttl) →
      (execOps (SmartCacheManager.init C dttl strat comp) ops).cache.length
        ≤ C) ∧
    (∀ (m : SmartCacheManager) (k : String) (v : Val) (ttl : Option Int)
      (force : Bool) (now : Int), (lookupDict m.cache k).isSome →
      (m.set k v ttl force now).2.cache.length = m.cache.length ∧
      (m.set k v ttl force now).2.evictions = m.evictions) := by
  constructor
  · intro C dttl strat comp ops hC hstrat
    have hinit : SmartCacheManager.cacheWF
        (SmartCacheManager.init C dttl strat comp) := by
      refine ⟨⟨?_, ?_, ?_⟩, ?_⟩ <;>
        simp [SmartCacheManager.init, keysOf]
    obtain ⟨⟨_, hlen⟩, hmx⟩ := execOps_WF ops
      (SmartCacheManager.init C dttl strat comp) hinit hstrat hC
    rw [hmx] at hlen
    exact hlen
  · intro m k v ttl force now hsome
    have hnotev : ¬ (m.cache.length ≥ m.max_size ∧
        (lookupDict m.cache k).isNone) := by
      rintro ⟨-, hnone⟩
      simp [Option.isNone_iff_eq_none] at hnone
      simp [hnone] at hsome
    have hk : k ∈ keysOf m.cache := (lookupDict_isSome m.cache k).mp hsome
    constructor
    · obtain ⟨mid, _, hcache, hno, _⟩ :=
        SmartCacheManager.set_result m k v ttl force now
      rw [hcache, hno hnotev]
      exact length_setKey_mem m.cache k _ hk
    · show (m.set k v ttl force now).2.evictions = m.evictions
      unfold SmartCacheManager.set
      dsimp only
      rw [ite_self, if_neg hnotev]
      refine (SmartCacheManager.evictions_initFreq _ _ _).trans
        ((SmartCacheManager.evictions_touchOrder _ _).trans ?_)
      exact SmartCacheManager.evictions_compress m v

theorem claim_C2_witness :
    (execOps (SmartCacheManager.init 2 (some 3600) .lru true)
      [.set "a" (.vint 1) none false 0, .set "b" (.vint 2) none false 0,
       .set "c" (.vint 3) none true 0, .get "a" 0,
       .delete "b"]).cache.length ≤ 2 ∧
    ((SmartCacheManager.init 2 (some 3600) .lru true).set "x" (.vint 9)
      none false 0).2.cache.length = 1 := by
  constructor
  · exact claim_C2_capacity_invariant.1 2 (some 3600) .lru true
      [.set "a" (.vint 1) none false 0, .set "b" (.vint 2) none false 0,
       .set "c" (.vint 3) none true 0, .get "a" 0, .delete "b"]
      (by norm_num) (Or.inl rfl)
  · rfl
